import Mathlib

/-!
Shallow embedding of the hosts-file library (class `HostsManager`):
the line-oriented parser/serializer and the entry-mutation operations
`getEntries`, `addEntry`, `removeEntry`.  Strings are modelled through
their character lists; the JavaScript operations `trimEnd`, `trimStart`,
`indexOf('#')`, `split(/\r?\n/)`, `split(/\s+/).filter(Boolean)`,
`[...new Set(xs)]`, `findIndex`, `lastIndexOf` are each embedded as a
structurally recursive function on `List Char` / lists.
-/

namespace HostsSpec

/-- JavaScript whitespace (the `\s` class used by `split(/\s+/)` and the
set trimmed by `trimStart` / `trimEnd`). -/
def isJsWhitespace (c : Char) : Bool :=
  c == ' ' || c == '\t' || c == '\n' || c == '\r' || c == '\x0b' || c == '\x0c'
  || c.val == 0x00a0 || c.val == 0x1680
  || (decide (0x2000 <= c.val) && decide (c.val <= 0x200a))
  || c.val == 0x2028 || c.val == 0x2029 || c.val == 0x202f || c.val == 0x205f
  || c.val == 0x3000 || c.val == 0xfeff

/-- JavaScript `String.prototype.trimStart`. -/
def trimStart (l : List Char) : List Char := l.dropWhile isJsWhitespace

/-- JavaScript `String.prototype.trimEnd`. -/
def trimEnd (l : List Char) : List Char := (l.reverse.dropWhile isJsWhitespace).reverse

/-- JavaScript `content.split(/\r?\n/)`: a separator is either a bare `\n`
or the pair `\r\n`; a `\r` not followed by `\n` is ordinary text. -/
def splitLinesAux : List Char → List Char → List (List Char)
  | [], acc => [acc.reverse]
  | c :: rest, acc =>
    if c = '\n' then acc.reverse :: splitLinesAux rest []
    else if c = '\r' then
      match rest with
      | [] => splitLinesAux [] (c :: acc)
      | c2 :: rest2 =>
        if c2 = '\n' then acc.reverse :: splitLinesAux rest2 []
        else splitLinesAux (c2 :: rest2) (c :: acc)
    else splitLinesAux rest (c :: acc)

def splitLines (l : List Char) : List (List Char) := splitLinesAux l []

/-- Splits a list at the first `'#'` (JavaScript `indexOf('#')` plus the two
`slice` calls): `some (before, after)` when a `'#'` occurs, `none` otherwise. -/
def splitFirstHash : List Char → Option (List Char × List Char)
  | [] => none
  | c :: rest =>
    if c = '#' then some ([], rest)
    else
      match splitFirstHash rest with
      | none => none
      | some (a, b) => some (c :: a, b)

/-- JavaScript `s.split(/\s+/).filter(Boolean)`: the maximal runs of
non-whitespace characters, in order. -/
def tokenizeAux : List Char → List Char → List (List Char)
  | [], acc => if acc = [] then [] else [acc.reverse]
  | c :: rest, acc =>
    if isJsWhitespace c then
      if acc = [] then tokenizeAux rest [] else acc.reverse :: tokenizeAux rest []
    else tokenizeAux rest (c :: acc)

def tokenize (l : List Char) : List (List Char) := tokenizeAux l []

/-- The tagged union `HostsLine` from the source: an entry, a whole-line
comment, or an empty line.  The entry's inline comment is optional. -/
inductive HostsLine where
  | entry (ip : String) (hostnames : List String) (comment : Option String)
  | comment (content : String)
  | empty
deriving DecidableEq, Repr

/-- The `HostsEntry` record returned by `getEntries`. -/
structure HostsEntry where
  ip : String
  hostnames : List String
  comment : Option String
deriving DecidableEq, Repr

/-- Classification of the data part of a line (tokens before any `'#'`),
mirroring the tail of the parser's per-line loop body. -/
def classifyData (dataPart : List Char) (inlineComment : Option String) : List HostsLine :=
  if dataPart = [] then [HostsLine.comment (inlineComment.getD "")]
  else
    match tokenize dataPart with
    | [] => [HostsLine.empty]
    | ip :: hostnames =>
      if ip = [] then []
      else [HostsLine.entry (String.mk ip) (hostnames.map String.mk) inlineComment]

/-- One iteration of the parser's loop: the lines pushed for one physical
line of input (always exactly one in fact, but the source's dead
`if (ip)` guard is kept). -/
def parseLine (raw : List Char) : List HostsLine :=
  let trimmed := trimEnd raw
  if trimmed = [] then [HostsLine.empty]
  else
    match splitFirstHash trimmed with
    | some ([], after) => [HostsLine.comment (String.mk (trimStart after))]
    | some (b :: before, after) =>
        classifyData (trimEnd (b :: before)) (some (String.mk (trimStart after)))
    | none => classifyData trimmed none

/-- `HostsManager.parse` on character lists. -/
def parseL (content : List Char) : List HostsLine :=
  (splitLines content).flatMap parseLine

/-- `HostsManager.parse`. -/
def parse (content : String) : List HostsLine := parseL content.data

/-- JavaScript `[xs].join(sep)` for a single-character separator. -/
def joinWith (sep : Char) : List (List Char) → List Char
  | [] => []
  | [t] => t
  | t :: ts => t ++ sep :: joinWith sep ts

/-- Serialization of one line, mirroring the `map` body of
`HostsManager.serialize` (note: a falsy — empty — comment string is
treated like an absent comment). -/
def serializeLine : HostsLine → List Char
  | HostsLine.empty => []
  | HostsLine.comment c => if c = "" then ['#'] else '#' :: ' ' :: c.data
  | HostsLine.entry ip hs c =>
      let main := joinWith '\t' (ip.data :: hs.map String.data)
      match c with
      | none => main
      | some s => if s = "" then main else main ++ '\t' :: '#' :: ' ' :: s.data

/-- `HostsManager.serialize`. -/
def serialize (lines : List HostsLine) : String :=
  String.mk (joinWith '\n' (lines.map serializeLine))

/-- `HostsManager.getEntries`. -/
def getEntries : List HostsLine → List HostsEntry
  | [] => []
  | HostsLine.entry ip hs c :: rest => ⟨ip, hs, c⟩ :: getEntries rest
  | _ :: rest => getEntries rest

/-- JavaScript `Array.prototype.findIndex` (as an optional index). -/
def findIdxO (p : α → Bool) : List α → Option Nat
  | [] => none
  | x :: rest => if p x then some 0 else (findIdxO p rest).map (· + 1)

/-- JavaScript `[...new Set(xs)]`: deduplication keeping the first
occurrence of each element, in order. -/
def dedupAux : List String → List String → List String
  | [], _ => []
  | x :: rest, seen =>
    if x ∈ seen then dedupAux rest seen else x :: dedupAux rest (x :: seen)

def dedupList (l : List String) : List String := dedupAux l []

def isEntry : HostsLine → Bool
  | HostsLine.entry _ _ _ => true
  | _ => false

/-- Predicate for `lines.findIndex((l) => l.type === 'entry' && l.ip === target)`. -/
def isEntryWithIp (target : String) : HostsLine → Bool
  | HostsLine.entry ip _ _ => ip == target
  | _ => false

/-- JavaScript `lines.map((l) => l.type).lastIndexOf('entry')` (as an
optional index). -/
def lastEntryIdx : List HostsLine → Option Nat
  | [] => none
  | l :: rest =>
    match lastEntryIdx rest with
    | some i => some (i + 1)
    | none => if isEntry l then some 0 else none

/-- `HostsManager.addEntry`. -/
def addEntry (lines : List HostsLine) (ip : String) (hostnames : List String) :
    List HostsLine :=
  let entries := getEntries lines
  let newHostnames := dedupList hostnames
  let inserted :=
    let insertAt := match lastEntryIdx lines with
      | some i => i + 1
      | none => lines.length
    lines.take insertAt ++ HostsLine.entry ip newHostnames none :: lines.drop insertAt
  match findIdxO (fun e => e.ip == ip) entries with
  | none => inserted
  | some i =>
    let targetIp := ((entries.get? i).map HostsEntry.ip).getD ""
    match findIdxO (isEntryWithIp targetIp) lines with
    | none => inserted
    | some lineIdx =>
      match lines.get? lineIdx with
      | some (HostsLine.entry ip0 hs0 c0) =>
          lines.set lineIdx (HostsLine.entry ip0 (dedupList (hs0 ++ newHostnames)) c0)
      | _ => inserted

/-- The `map` body of `HostsManager.removeEntry`: `none` models the `null`
that the final `filter` drops. -/
def removeLine (x : String) : HostsLine → Option HostsLine
  | HostsLine.entry ip hs c =>
    if ip = x then none
    else if x ∈ hs then
      let filtered := hs.filter (fun h => h ≠ x)
      if filtered.length > 0 then some (HostsLine.entry ip filtered c) else none
    else some (HostsLine.entry ip hs c)
  | l => some l

/-- `HostsManager.removeEntry`. -/
def removeEntry (lines : List HostsLine) (x : String) : List HostsLine :=
  lines.filterMap (removeLine x)

/-- Modelled on the spec's wording for `removeEntry` (§4.2): per entry, in
order, IP match drops the line; otherwise a hostname match removes that
hostname and drops the line exactly when the remainder is empty; all other
lines pass through. -/
def removeEntrySpec (lines : List HostsLine) (x : String) : List HostsLine :=
  lines.filterMap fun l =>
    match l with
    | HostsLine.entry ip hs c =>
      if ip = x then none
      else if x ∈ hs then
        if hs.filter (fun h => h ≠ x) = [] then none
        else some (HostsLine.entry ip (hs.filter (fun h => h ≠ x)) c)
      else some l
    | other => some other

/-- Invariant of claim C2: every entry line carries at least one hostname. -/
def entriesNonempty (L : List HostsLine) : Prop :=
  ∀ ip hs c, HostsLine.entry ip hs c ∈ L → hs ≠ []

/-- Normalization that forgets an empty-string inline comment on an entry
(the shape `serialize` cannot distinguish from an absent comment). -/
def normalizeLine : HostsLine → HostsLine
  | HostsLine.entry ip hs (some s) =>
      if s = "" then HostsLine.entry ip hs none else HostsLine.entry ip hs (some s)
  | l => l

/-! ### Generic list helper lemmas -/

theorem filterMap_eq_self {f : α → Option α} {L : List α}
    (h : ∀ l ∈ L, f l = some l) : L.filterMap f = L := by
  induction L with
  | nil => rfl
  | cons a t ih =>
    rw [List.filterMap_cons, h a (List.mem_cons_self a t),
      ih fun l hl => h l (List.mem_cons_of_mem a hl)]

theorem filterMap_idem {f : α → Option α} {L : List α}
    (h : ∀ l l', f l = some l' → f l' = some l') :
    (L.filterMap f).filterMap f = L.filterMap f := by
  apply filterMap_eq_self
  intro l hl
  rcases List.mem_filterMap.1 hl with ⟨a, _, ha⟩
  exact h a l ha

/-! ### removeEntry lemmas -/

theorem removeLine_stable (x : String) (l l' : HostsLine)
    (h : removeLine x l = some l') : removeLine x l' = some l' := by
  cases l with
  | comment c =>
    simp only [removeLine, Option.some.injEq] at h
    subst h; rfl
  | empty =>
    simp only [removeLine, Option.some.injEq] at h
    subst h; rfl
  | entry ip hs c =>
    simp only [removeLine] at h
    split_ifs at h with hip hmem hlen
    · rw [Option.some.injEq] at h
      subst h
      have hx : ¬ x ∈ hs.filter (fun h => h ≠ x) := by
        simp [List.mem_filter]
      simp only [removeLine]
      rw [if_neg hip, if_neg hx]
    · rw [Option.some.injEq] at h
      subst h
      simp only [removeLine]
      rw [if_neg hip, if_neg hmem]

theorem removeLine_id_of_no_match (x : String) (l : HostsLine)
    (h : ∀ ip hs c, l = HostsLine.entry ip hs c → ip ≠ x ∧ x ∉ hs) :
    removeLine x l = some l := by
  cases l with
  | comment c => rfl
  | empty => rfl
  | entry ip hs c =>
    obtain ⟨hip, hmem⟩ := h ip hs c rfl
    simp [removeLine, hip, hmem]

/-! ### Claim C5, C8, C9 theorems -/

/-- C5: `removeEntry` maps each Entry in order — an ip match drops the whole
line; else a hostname match removes that hostname and drops the line exactly
when the remaining hostname list is empty, keeping remaining hostnames in
order otherwise; all other lines pass through unchanged, with the per-entry
ip-match taking precedence over the hostname match.  Stated as a refinement:
the code's `removeEntry` coincides with `removeEntrySpec`, the transformation
written from the spec's words. -/
theorem removeEntry_refines_spec :
    ∀ (L : List HostsLine) (x : String), removeEntry L x = removeEntrySpec L x := by
  intro L x
  unfold removeEntry removeEntrySpec
  congr 1
  funext l
  cases l with
  | comment c => rfl
  | empty => rfl
  | entry ip hs c =>
    dsimp only [removeLine]
    by_cases hip : ip = x
    · rw [if_pos hip, if_pos hip]
    · rw [if_neg hip, if_neg hip]
      by_cases hmem : x ∈ hs
      · rw [if_pos hmem, if_pos hmem]
        cases hfil : hs.filter (fun h => h ≠ x) with
        | nil => simp
        | cons a t => simp
      · rw [if_neg hmem, if_neg hmem]

/-- C8: when the argument matches no entry's ip and no entry's hostname,
`removeEntry` returns the input sequence unchanged (and raises no error). -/
theorem removeEntry_no_match (L : List HostsLine) (x : String)
    (h : ∀ ip hs c, HostsLine.entry ip hs c ∈ L → ip ≠ x ∧ x ∉ hs) :
    removeEntry L x = L := by
  apply filterMap_eq_self
  intro l hl
  apply removeLine_id_of_no_match
  intro ip hs c hlc
  exact h ip hs c (hlc ▸ hl)

/-- Witness for C8 at a concrete sequence and argument. -/
theorem removeEntry_no_match_witness :
    removeEntry [HostsLine.entry "127.0.0.1" ["localhost"] none,
        HostsLine.comment "c", HostsLine.empty] "absent" =
      [HostsLine.entry "127.0.0.1" ["localhost"] none,
        HostsLine.comment "c", HostsLine.empty] := by
  apply removeEntry_no_match
  intro ip hs c hmem
  simp only [List.mem_cons, List.not_mem_nil, or_false] at hmem
  rcases hmem with h | h | h
  · cases h
    exact ⟨by decide, by decide⟩
  · exact HostsLine.noConfusion h
  · exact HostsLine.noConfusion h

/-- C9: `removeEntry` is idempotent — removing the same argument twice gives
the same sequence as removing it once. -/
theorem removeEntry_idempotent :
    ∀ (L : List HostsLine) (x : String),
      removeEntry (removeEntry L x) x = removeEntry L x := by
  intro L x
  exact filterMap_idem fun l l' => removeLine_stable x l l'

/-! ### findIdxO lemmas -/

theorem findIdxO_eq_none_iff {p : α → Bool} {L : List α} :
    findIdxO p L = none ↔ ∀ x ∈ L, p x = false := by
  induction L with
  | nil => simp [findIdxO]
  | cons a t ih =>
    by_cases ha : p a = true
    · simp [findIdxO, ha]
    · simp only [Bool.not_eq_true] at ha
      simp [findIdxO, ha, ih]

theorem findIdxO_some_get {p : α → Bool} {L : List α} {i : Nat}
    (h : findIdxO p L = some i) : ∃ x, L.get? i = some x ∧ p x = true := by
  induction L generalizing i with
  | nil => simp [findIdxO] at h
  | cons a t ih =>
    by_cases ha : p a = true
    · simp only [findIdxO, if_pos ha, Option.some.injEq] at h
      subst h
      exact ⟨a, rfl, ha⟩
    · rw [findIdxO, if_neg ha, Option.map_eq_some'] at h
      obtain ⟨i', hi', rfl⟩ := h
      obtain ⟨x, hx, hp⟩ := ih hi'
      exact ⟨x, hx, hp⟩

theorem findIdxO_some_before {p : α → Bool} {L : List α} {i : Nat}
    (h : findIdxO p L = some i) :
    ∀ j, j < i → ∀ y, L.get? j = some y → p y = false := by
  induction L generalizing i with
  | nil => simp [findIdxO] at h
  | cons a t ih =>
    by_cases ha : p a = true
    · simp only [findIdxO, if_pos ha, Option.some.injEq] at h
      subst h
      intro j hj
      exact absurd hj (Nat.not_lt_zero j)
    · rw [findIdxO, if_neg ha, Option.map_eq_some'] at h
      obtain ⟨i', hi', rfl⟩ := h
      intro j hj y hy
      cases j with
      | zero =>
        rw [List.get?_cons_zero, Option.some.injEq] at hy
        subst hy
        exact Bool.not_eq_true _ ▸ (by simpa using ha)
      | succ j' =>
        rw [List.get?_cons_succ] at hy
        exact ih hi' j' (Nat.lt_of_succ_lt_succ hj) y hy

theorem findIdxO_eq_some_of {p : α → Bool} {L : List α} {i : Nat} {x : α}
    (hget : L.get? i = some x) (hp : p x = true)
    (hbefore : ∀ j, j < i → ∀ y, L.get? j = some y → p y = false) :
    findIdxO p L = some i := by
  induction L generalizing i with
  | nil => simp at hget
  | cons a t ih =>
    cases i with
    | zero =>
      rw [List.get?_cons_zero, Option.some.injEq] at hget
      subst hget
      rw [findIdxO, if_pos hp]
    | succ k =>
      have ha : p a = false := hbefore 0 (Nat.succ_pos k) a rfl
      rw [findIdxO, if_neg (by simp [ha]),
        ih (by simpa using hget)
          (fun j hj y hy => hbefore (j + 1) (Nat.succ_lt_succ hj) y (by simpa using hy))]
      rfl

/-! ### lastEntryIdx lemmas -/

theorem lastEntryIdx_none_iff {L : List HostsLine} :
    lastEntryIdx L = none ↔ ∀ l ∈ L, isEntry l = false := by
  induction L with
  | nil => simp [lastEntryIdx]
  | cons a t ih =>
    rw [lastEntryIdx]
    cases ht : lastEntryIdx t with
    | some j =>
      simp only [ht]
      constructor
      · intro h; exact absurd h (by simp)
      · intro h
        have : ∀ l ∈ t, isEntry l = false := fun l hl => h l (List.mem_cons_of_mem a hl)
        rw [ih.2 this] at ht
        exact Option.noConfusion ht
    | none =>
      by_cases ha : isEntry a = true
      · simp [ha, ht]
      · simp only [Bool.not_eq_true] at ha
        simp only [ha, ht, Bool.false_eq_true, if_false, true_iff]
        intro l hl
        rcases List.mem_cons.1 hl with rfl | hl
        · exact ha
        · exact ih.1 ht l hl

theorem lastEntryIdx_some_get {L : List HostsLine} {i : Nat}
    (h : lastEntryIdx L = some i) : ∃ l, L.get? i = some l ∧ isEntry l = true := by
  induction L generalizing i with
  | nil => simp [lastEntryIdx] at h
  | cons a t ih =>
    rw [lastEntryIdx] at h
    cases ht : lastEntryIdx t with
    | some j =>
      rw [ht, Option.some.injEq] at h
      subst h
      obtain ⟨l, hl, he⟩ := ih ht
      exact ⟨l, by simpa using hl, he⟩
    | none =>
      rw [ht] at h
      by_cases ha : isEntry a = true
      · rw [if_pos ha, Option.some.injEq] at h
        subst h
        exact ⟨a, rfl, ha⟩
      · rw [if_neg ha] at h
        exact Option.noConfusion h

theorem lastEntryIdx_some_after {L : List HostsLine} {i : Nat}
    (h : lastEntryIdx L = some i) : ∀ l ∈ L.drop (i + 1), isEntry l = false := by
  induction L generalizing i with
  | nil => simp [lastEntryIdx] at h
  | cons a t ih =>
    rw [lastEntryIdx] at h
    cases ht : lastEntryIdx t with
    | some j =>
      rw [ht, Option.some.injEq] at h
      subst h
      simpa using ih ht
    | none =>
      rw [ht] at h
      by_cases ha : isEntry a = true
      · rw [if_pos ha, Option.some.injEq] at h
        subst h
        simpa using lastEntryIdx_none_iff.1 ht
      · rw [if_neg ha] at h
        exact Option.noConfusion h

/-! ### getEntries lemmas -/

theorem exists_entry_ip_iff {L : List HostsLine} {ip : String} :
    (∃ e ∈ getEntries L, e.ip = ip) ↔ ∃ l ∈ L, isEntryWithIp ip l = true := by
  induction L with
  | nil => simp [getEntries]
  | cons a t ih =>
    cases a with
    | entry a b c =>
      simp only [getEntries, List.mem_cons]
      constructor
      · rintro ⟨e, he | he, hip⟩
        · subst he
          refine ⟨HostsLine.entry a b c, Or.inl rfl, ?_⟩
          simpa [isEntryWithIp, beq_iff_eq] using hip
        · obtain ⟨l, hl, h2⟩ := ih.1 ⟨e, he, hip⟩
          exact ⟨l, Or.inr hl, h2⟩
      · rintro ⟨l, rfl | hl, hip⟩
        · refine ⟨⟨a, b, c⟩, Or.inl rfl, ?_⟩
          simpa [isEntryWithIp, beq_iff_eq] using hip
        · obtain ⟨e, he, hip2⟩ := ih.2 ⟨l, hl, hip⟩
          exact ⟨e, Or.inr he, hip2⟩
    | comment c =>
      simp only [getEntries, List.mem_cons]
      rw [ih]
      constructor
      · rintro ⟨l, hl, hip⟩; exact ⟨l, Or.inr hl, hip⟩
      · rintro ⟨l, rfl | hl, hip⟩
        · simp [isEntryWithIp] at hip
        · exact ⟨l, hl, hip⟩
    | empty =>
      simp only [getEntries, List.mem_cons]
      rw [ih]
      constructor
      · rintro ⟨l, hl, hip⟩; exact ⟨l, Or.inr hl, hip⟩
      · rintro ⟨l, rfl | hl, hip⟩
        · simp [isEntryWithIp] at hip
        · exact ⟨l, hl, hip⟩

/-! ### dedupList lemmas -/

theorem mem_dedupAux {l seen : List String} {x : String} :
    x ∈ dedupAux l seen ↔ x ∈ l ∧ x ∉ seen := by
  induction l generalizing seen with
  | nil => simp [dedupAux]
  | cons a t ih =>
    by_cases ha : a ∈ seen
    · rw [dedupAux, if_pos ha, ih]
      constructor
      · rintro ⟨h1, h2⟩; exact ⟨List.mem_cons_of_mem a h1, h2⟩
      · rintro ⟨h1, h2⟩
        rcases List.mem_cons.1 h1 with rfl | h1
        · exact absurd ha h2
        · exact ⟨h1, h2⟩
    · rw [dedupAux, if_neg ha]
      rw [List.mem_cons, ih, List.mem_cons, List.mem_cons]
      constructor
      · rintro (rfl | ⟨h1, h2⟩)
        · exact ⟨Or.inl rfl, ha⟩
        · exact ⟨Or.inr h1, fun hc => h2 (Or.inr hc)⟩
      · rintro ⟨rfl | h1, h2⟩
        · exact Or.inl rfl
        · by_cases hx : x = a
          · exact Or.inl hx
          · exact Or.inr ⟨h1, fun hc => hc.elim hx h2⟩

theorem dedupAux_congr {l s1 s2 : List String} (h : ∀ y, y ∈ s1 ↔ y ∈ s2) :
    dedupAux l s1 = dedupAux l s2 := by
  induction l generalizing s1 s2 with
  | nil => rfl
  | cons a t ih =>
    by_cases ha : a ∈ s1
    · rw [dedupAux, if_pos ha, dedupAux, if_pos ((h a).1 ha)]
      exact ih h
    · rw [dedupAux, if_neg ha, dedupAux, if_neg (fun hc => ha ((h a).2 hc))]
      refine congrArg _ (ih fun y => ?_)
      rw [List.mem_cons, List.mem_cons, h y]

theorem dedupAux_append {a b seen : List String} :
    dedupAux (a ++ b) seen = dedupAux a seen ++ dedupAux b (a ++ seen) := by
  induction a generalizing seen with
  | nil => rfl
  | cons x t ih =>
    by_cases hx : x ∈ seen
    · have e1 : dedupAux (x :: t ++ b) seen = dedupAux (t ++ b) seen := by
        rw [List.cons_append, dedupAux, if_pos hx]
      have e2 : dedupAux (x :: t) seen = dedupAux t seen := by
        rw [dedupAux, if_pos hx]
      rw [e1, e2, ih]
      refine congrArg _ (dedupAux_congr fun y => ?_)
      rw [List.mem_append, List.mem_append, List.mem_cons]
      constructor
      · intro h
        rcases h with h | h
        · exact Or.inl (Or.inr h)
        · exact Or.inr h
      · intro h
        rcases h with h | h
        · rcases h with rfl | h
          · exact Or.inr hx
          · exact Or.inl h
        · exact Or.inr h
    · have e1 : dedupAux (x :: t ++ b) seen = x :: dedupAux (t ++ b) (x :: seen) := by
        rw [List.cons_append, dedupAux, if_neg hx]
      have e2 : dedupAux (x :: t) seen = x :: dedupAux t (x :: seen) := by
        rw [dedupAux, if_neg hx]
      rw [e1, e2, ih, List.cons_append]
      refine congrArg _ (congrArg _ (dedupAux_congr fun y => ?_))
      rw [List.mem_append, List.mem_append, List.mem_cons, List.mem_cons]
      tauto

theorem dedupAux_eq_nil {b seen : List String} (h : ∀ x ∈ b, x ∈ seen) :
    dedupAux b seen = [] := by
  induction b with
  | nil => rfl
  | cons x t ih =>
    rw [dedupAux, if_pos (h x (List.mem_cons_self x t))]
    exact ih fun y hy => h y (List.mem_cons_of_mem x hy)

theorem dedupAux_idem {l : List String} :
    ∀ seen, dedupAux (dedupAux l seen) seen = dedupAux l seen := by
  induction l with
  | nil => intro seen; rfl
  | cons a t ih =>
    intro seen
    by_cases ha : a ∈ seen
    · rw [dedupAux, if_pos ha]
      exact ih seen
    · rw [dedupAux, if_neg ha, dedupAux, if_neg ha]
      exact congrArg _ (ih (a :: seen))

theorem mem_dedupList {l : List String} {x : String} :
    x ∈ dedupList l ↔ x ∈ l := by
  rw [dedupList, mem_dedupAux]
  simp

theorem dedupList_append {a b : List String} :
    dedupList (a ++ b) = dedupList a ++ dedupAux b a := by
  rw [dedupList, dedupAux_append, dedupList]
  refine congrArg _ (dedupAux_congr fun y => ?_)
  simp

theorem dedupList_ne_nil {l : List String} (h : l ≠ []) : dedupList l ≠ [] := by
  cases l with
  | nil => exact absurd rfl h
  | cons a t =>
    rw [dedupList, dedupAux, if_neg (List.not_mem_nil a)]
    exact List.cons_ne_nil _ _

theorem dedupAux_eq_filter {b : List String} :
    ∀ {s t : List String},
      dedupAux b (s ++ t) = (dedupAux b s).filter (fun y => ¬ y ∈ t) := by
  induction b with
  | nil => intro s t; rfl
  | cons x r ih =>
    intro s t
    by_cases hs : x ∈ s
    · rw [dedupAux, if_pos (List.mem_append.2 (Or.inl hs)), dedupAux, if_pos hs, ih]
    · by_cases ht : x ∈ t
      · rw [dedupAux, if_pos (List.mem_append.2 (Or.inr ht)), dedupAux, if_neg hs,
          List.filter_cons]
        have hx : decide (¬ x ∈ t) = false := by simp [ht]
        simp only [hx, Bool.false_eq_true, if_false]
        rw [← ih]
        refine dedupAux_congr fun y => ?_
        rw [List.mem_append, List.mem_append, List.mem_cons]
        constructor
        · rintro (h | h)
          · exact Or.inl (Or.inr h)
          · exact Or.inr h
        · rintro ((rfl | h) | h)
          · exact Or.inr ht
          · exact Or.inl h
          · exact Or.inr h
      · have hst : ¬ x ∈ s ++ t := by
          rw [List.mem_append]
          rintro (h | h)
          · exact hs h
          · exact ht h
        rw [dedupAux, if_neg hst, dedupAux, if_neg hs, List.filter_cons]
        have hx : decide (¬ x ∈ t) = true := by simp [ht]
        simp only [hx, if_true]
        exact congrArg _ (ih (s := x :: s) (t := t))

theorem dedupAux_eq_filter_dedupList {b seen : List String} :
    dedupAux b seen = (dedupList b).filter (fun y => ¬ y ∈ seen) :=
  dedupAux_eq_filter (s := []) (t := seen)

/-! ### get? and set helper lemmas -/

theorem getq_some_lt {L : List α} {i : Nat} {x : α} (h : L.get? i = some x) :
    i < L.length := by
  induction L generalizing i with
  | nil => simp at h
  | cons a t ih =>
    cases i with
    | zero => exact Nat.succ_pos _
    | succ k => exact Nat.succ_lt_succ (ih (by simpa using h))

theorem getq_mem {L : List α} {i : Nat} {x : α} (h : L.get? i = some x) : x ∈ L := by
  induction L generalizing i with
  | nil => simp at h
  | cons a t ih =>
    cases i with
    | zero =>
      rw [List.get?_cons_zero, Option.some.injEq] at h
      exact h ▸ List.mem_cons_self a t
    | succ k => exact List.mem_cons_of_mem a (ih (by simpa using h))

theorem getq_set_self {L : List α} {i : Nat} {v : α} (h : i < L.length) :
    (L.set i v).get? i = some v := by
  induction L generalizing i with
  | nil => simp at h
  | cons a t ih =>
    cases i with
    | zero => rfl
    | succ k => exact ih (Nat.lt_of_succ_lt_succ h)

theorem getq_set_ne {L : List α} {i j : Nat} {v : α} (h : j ≠ i) :
    (L.set i v).get? j = L.get? j := by
  induction L generalizing i j with
  | nil => simp
  | cons a t ih =>
    cases i with
    | zero =>
      cases j with
      | zero => exact absurd rfl h
      | succ k => rfl
    | succ m =>
      cases j with
      | zero => rfl
      | succ k => exact ih fun hc => h (congrArg Nat.succ hc)

theorem set_getq_self {L : List α} {i : Nat} {v : α} (h : L.get? i = some v) :
    L.set i v = L := by
  induction L generalizing i with
  | nil => rfl
  | cons a t ih =>
    cases i with
    | zero =>
      rw [List.get?_cons_zero, Option.some.injEq] at h
      rw [List.set_cons_zero, h]
    | succ k =>
      rw [List.set_cons_succ, ih (by simpa using h)]

theorem mem_of_mem_set {L : List α} {i : Nat} {v y : α} (h : y ∈ L.set i v) :
    y ∈ L ∨ y = v := by
  induction L generalizing i with
  | nil => simp at h
  | cons a t ih =>
    cases i with
    | zero =>
      rcases List.mem_cons.1 h with rfl | h
      · exact Or.inr rfl
      · exact Or.inl (List.mem_cons_of_mem a h)
    | succ k =>
      rcases List.mem_cons.1 h with rfl | h
      · exact Or.inl (List.mem_cons_self _ _)
      · rcases ih h with h | h
        · exact Or.inl (List.mem_cons_of_mem a h)
        · exact Or.inr h

theorem getq_append_cons {A B : List α} {x : α} :
    (A ++ x :: B).get? A.length = some x := by
  induction A with
  | nil => rfl
  | cons a t ih => simpa using ih

theorem getq_append_left {A B : List α} {j : Nat} (h : j < A.length) :
    (A ++ B).get? j = A.get? j := by
  induction A generalizing j with
  | nil => simp at h
  | cons a t ih =>
    cases j with
    | zero => rfl
    | succ k => exact ih (Nat.lt_of_succ_lt_succ h)

/-! ### addEntry characterization -/

theorem addEntry_of_no_ip {L : List HostsLine} {ip : String} {hs : List String}
    (h : ∀ l ∈ L, isEntryWithIp ip l = false) :
    addEntry L ip hs =
      L.take (match lastEntryIdx L with | some i => i + 1 | none => L.length)
        ++ HostsLine.entry ip (dedupList hs) none
        :: L.drop (match lastEntryIdx L with | some i => i + 1 | none => L.length) := by
  have hnone : findIdxO (fun e => e.ip == ip) (getEntries L) = none := by
    rw [findIdxO_eq_none_iff]
    intro e he
    by_cases hip : e.ip = ip
    · exfalso
      obtain ⟨l, hl, hw⟩ := exists_entry_ip_iff.1 ⟨e, he, hip⟩
      rw [h l hl] at hw
      exact Bool.noConfusion hw
    · simpa using hip
  simp only [addEntry, hnone]

theorem addEntry_of_ip_found {L : List HostsLine} {ip : String} {hs : List String}
    {i : Nat} {oldHs : List String} {oldC : Option String}
    (hfind : findIdxO (isEntryWithIp ip) L = some i)
    (hget : L.get? i = some (HostsLine.entry ip oldHs oldC)) :
    addEntry L ip hs =
      L.set i (HostsLine.entry ip (dedupList (oldHs ++ dedupList hs)) oldC) := by
  have hmem : HostsLine.entry ip oldHs oldC ∈ L := getq_mem hget
  have hex : ∃ l ∈ L, isEntryWithIp ip l = true :=
    ⟨_, hmem, by simp [isEntryWithIp]⟩
  obtain ⟨j, hj⟩ : ∃ j, findIdxO (fun e => e.ip == ip) (getEntries L) = some j := by
    cases hfj : findIdxO (fun e => e.ip == ip) (getEntries L) with
    | none =>
      exfalso
      obtain ⟨e, he, hip⟩ := exists_entry_ip_iff.2 hex
      have hb := findIdxO_eq_none_iff.1 hfj e he
      rw [hip] at hb
      simp at hb
    | some j => exact ⟨j, rfl⟩
  obtain ⟨e, hje, hjp⟩ := findIdxO_some_get hj
  have hip : e.ip = ip := by simpa using hjp
  simp only [addEntry, hj, hje, Option.map_some', Option.getD_some, hip, hfind, hget]

theorem dedupList_idem {l : List String} : dedupList (dedupList l) = dedupList l :=
  dedupAux_idem []

theorem findIdxO_entry_shape {L : List HostsLine} {ip : String} {i : Nat}
    (hi : findIdxO (isEntryWithIp ip) L = some i) :
    ∃ oldHs oldC, L.get? i = some (HostsLine.entry ip oldHs oldC) := by
  obtain ⟨l0, hget, hp⟩ := findIdxO_some_get hi
  cases l0 with
  | entry a b c =>
    have ha : a = ip := by simpa [isEntryWithIp] using hp
    exact ⟨b, c, by rw [← ha]; exact hget⟩
  | comment c => simp [isEntryWithIp] at hp
  | empty => simp [isEntryWithIp] at hp

theorem exists_ip_or (L : List HostsLine) (ip : String) :
    (∃ i, findIdxO (isEntryWithIp ip) L = some i) ∨
      (∀ l ∈ L, isEntryWithIp ip l = false) := by
  cases hf : findIdxO (isEntryWithIp ip) L with
  | none => exact Or.inr (findIdxO_eq_none_iff.1 hf)
  | some i => exact Or.inl ⟨i, rfl⟩

/-! ### Claim C3 and C4 theorems -/

/-- C3: when `L` contains at least one Entry whose ip equals the argument
(the first such Entry line sitting at index `i`), `addEntry` replaces that
entry's hostnames with the deduplicated union — the existing hostnames
deduplicated, in their order, then the new hostnames not already present, in
their given order — keeps that entry's ip, comment and position, leaves every
other line unchanged, and inserts no new line (the result is a point update
`L.set i`). -/
theorem addEntry_existing_ip (L : List HostsLine) (ip : String) (hs : List String)
    (i : Nat) (oldHs : List String) (oldC : Option String)
    (hfind : findIdxO (isEntryWithIp ip) L = some i)
    (hget : L.get? i = some (HostsLine.entry ip oldHs oldC)) :
    addEntry L ip hs =
      L.set i (HostsLine.entry ip
        (dedupList oldHs ++ (dedupList hs).filter (fun h => ¬ h ∈ oldHs)) oldC) := by
  rw [addEntry_of_ip_found hfind hget, dedupList_append, dedupAux_eq_filter_dedupList,
    dedupList_idem]

/-- Witness for C3: a sequence with two entries of the same ip; only the
first is updated, in place, with the ordered deduplicated union. -/
theorem addEntry_existing_ip_witness :
    addEntry [HostsLine.comment "hd",
        HostsLine.entry "127.0.0.1" ["localhost", "a"] (some "k"),
        HostsLine.entry "127.0.0.1" ["dup"] none] "127.0.0.1"
        ["local", "local", "localhost"] =
      [HostsLine.comment "hd",
        HostsLine.entry "127.0.0.1" ["localhost", "a", "local"] (some "k"),
        HostsLine.entry "127.0.0.1" ["dup"] none] := by
  rw [addEntry_existing_ip _ "127.0.0.1" ["local", "local", "localhost"] 1
    ["localhost", "a"] (some "k") (by decide) (by decide)]
  decide

/-- C4: when no Entry of `L` has the given ip, `addEntry` inserts exactly one
new Entry — with that ip, the deduplicated input hostnames in first-occurrence
order, and no comment — immediately after the last existing Entry line
(appending at the end when `L` has no Entry line), keeping all pre-existing
lines in their relative order. -/
theorem addEntry_new_ip (L : List HostsLine) (ip : String) (hs : List String)
    (h : ∀ l ∈ L, isEntryWithIp ip l = false) :
    ∃ A B, L = A ++ B ∧
      addEntry L ip hs = A ++ HostsLine.entry ip (dedupList hs) none :: B ∧
      (∀ l ∈ B, isEntry l = false) ∧
      ((∃ A0 e, A = A0 ++ [e] ∧ isEntry e = true) ∨
        (B = [] ∧ ∀ l ∈ L, isEntry l = false)) := by
  rw [addEntry_of_no_ip h]
  cases hle : lastEntryIdx L with
  | some i =>
    refine ⟨L.take (i + 1), L.drop (i + 1), (List.take_append_drop (i + 1) L).symm,
      rfl, lastEntryIdx_some_after hle, Or.inl ?_⟩
    obtain ⟨l0, hget0, he0⟩ := lastEntryIdx_some_get hle
    refine ⟨L.take i, l0, ?_, he0⟩
    rw [List.take_succ, ← List.get?_eq_getElem?, hget0]
    rfl
  | none =>
    refine ⟨L, [], (List.append_nil L).symm, ?_, by simp,
      Or.inr ⟨rfl, lastEntryIdx_none_iff.1 hle⟩⟩
    simp

/-- Witness for C4: insertion lands right after the last entry line, before
trailing non-entry lines. -/
theorem addEntry_new_ip_witness :
    ∃ A B,
      [HostsLine.entry "1.1.1.1" ["a"] none, HostsLine.comment "x",
          HostsLine.entry "2.2.2.2" ["b"] none, HostsLine.empty] = A ++ B ∧
      addEntry [HostsLine.entry "1.1.1.1" ["a"] none, HostsLine.comment "x",
          HostsLine.entry "2.2.2.2" ["b"] none, HostsLine.empty] "9.9.9.9"
          ["x", "x", "y"] =
        A ++ HostsLine.entry "9.9.9.9" (dedupList ["x", "x", "y"]) none :: B ∧
      (∀ l ∈ B, isEntry l = false) ∧
      ((∃ A0 e, A = A0 ++ [e] ∧ isEntry e = true) ∨
        (B = [] ∧ ∀ l ∈ [HostsLine.entry "1.1.1.1" ["a"] none, HostsLine.comment "x",
          HostsLine.entry "2.2.2.2" ["b"] none, HostsLine.empty], isEntry l = false)) :=
  addEntry_new_ip _ "9.9.9.9" ["x", "x", "y"] (by decide)

/-! ### Claim C10: addEntry idempotence -/

/-- C10: `addEntry` is idempotent — adding the same ip and hostname list
twice yields the same sequence as adding it once. -/
theorem addEntry_idempotent :
    ∀ (L : List HostsLine) (ip : String) (hs : List String),
      addEntry (addEntry L ip hs) ip hs = addEntry L ip hs := by
  intro L ip hs
  rcases exists_ip_or L ip with ⟨i, hi⟩ | h
  · obtain ⟨oldHs, oldC, hget⟩ := findIdxO_entry_shape hi
    rw [addEntry_of_ip_found hi hget]
    have hilt : i < L.length := getq_some_lt hget
    have hget2 : (L.set i (HostsLine.entry ip (dedupList (oldHs ++ dedupList hs))
        oldC)).get? i =
        some (HostsLine.entry ip (dedupList (oldHs ++ dedupList hs)) oldC) :=
      getq_set_self hilt
    have hfind2 : findIdxO (isEntryWithIp ip)
        (L.set i (HostsLine.entry ip (dedupList (oldHs ++ dedupList hs)) oldC)) =
        some i := by
      apply findIdxO_eq_some_of hget2
      · simp [isEntryWithIp]
      · intro j hj y hy
        rw [getq_set_ne (Nat.ne_of_lt hj)] at hy
        exact findIdxO_some_before hi j hj y hy
    rw [addEntry_of_ip_found hfind2 hget2]
    have habs : dedupList (dedupList (oldHs ++ dedupList hs) ++ dedupList hs) =
        dedupList (oldHs ++ dedupList hs) := by
      rw [dedupList_append]
      have h1 : dedupAux (dedupList hs) (dedupList (oldHs ++ dedupList hs)) = [] :=
        dedupAux_eq_nil fun y hy =>
          mem_dedupList.2 (List.mem_append.2 (Or.inr hy))
      rw [h1, List.append_nil, dedupList_idem]
    rw [habs]
    exact set_getq_self hget2
  · rw [addEntry_of_no_ip h]
    have hkle : (match lastEntryIdx L with | some i => i + 1 | none => L.length) ≤
        L.length := by
      cases hle : lastEntryIdx L with
      | some i =>
        obtain ⟨l0, hget0, _⟩ := lastEntryIdx_some_get hle
        exact Nat.succ_le_of_lt (getq_some_lt hget0)
      | none => exact Nat.le_refl _
    generalize hk : (match lastEntryIdx L with | some i => i + 1 | none => L.length) = k
    rw [hk] at hkle
    have htk : (L.take k).length = k := by
      rw [List.length_take]
      exact Nat.min_eq_left hkle
    have hget2 : (L.take k ++ HostsLine.entry ip (dedupList hs) none ::
        L.drop k).get? k = some (HostsLine.entry ip (dedupList hs) none) := by
      have h0 := getq_append_cons (A := L.take k) (B := L.drop k)
        (x := HostsLine.entry ip (dedupList hs) none)
      rw [htk] at h0
      exact h0
    have hfind2 : findIdxO (isEntryWithIp ip)
        (L.take k ++ HostsLine.entry ip (dedupList hs) none :: L.drop k) =
        some k := by
      apply findIdxO_eq_some_of hget2
      · simp [isEntryWithIp]
      · intro j hj y hy
        have hjlt : j < (L.take k).length := by
          rw [htk]
          exact hj
        rw [getq_append_left hjlt] at hy
        exact h y (List.take_subset _ L (getq_mem hy))
    rw [addEntry_of_ip_found hfind2 hget2]
    have habs : dedupList (dedupList hs ++ dedupList hs) = dedupList hs := by
      rw [dedupList_append, dedupAux_eq_nil fun y hy => hy, List.append_nil,
        dedupList_idem]
    rw [habs]
    exact set_getq_self hget2

/-! ### Claim C2: entry hostname non-emptiness -/

/-- C2 is false as stated: `parse` yields an Entry with an empty hostname
list for a lone-ip line, and `addEntry` called with no hostnames inserts
such an Entry as well. -/
theorem entriesNonempty_cex :
    parse "127.0.0.1" = [HostsLine.entry "127.0.0.1" [] none] ∧
    addEntry [] "1.2.3.4" [] = [HostsLine.entry "1.2.3.4" [] none] ∧
    ¬ entriesNonempty (parse "127.0.0.1") := by
  refine ⟨by decide, by decide, fun h => ?_⟩
  exact h "127.0.0.1" [] none (by decide) rfl

/-- C2 (amended): `removeEntry` preserves the invariant that every Entry has
a non-empty hostname list, and so does `addEntry` when called with a
non-empty hostname list; `parse` (on a lone-ip line) and `addEntry` with an
empty hostname list can produce an Entry with no hostnames. -/
theorem entriesNonempty_preserved (L : List HostsLine) (x ip : String)
    (hs : List String) (hinv : entriesNonempty L) (hhs : hs ≠ []) :
    entriesNonempty (removeEntry L x) ∧ entriesNonempty (addEntry L ip hs) := by
  constructor
  · intro ip0 hs0 c0 hmem
    rcases List.mem_filterMap.1 hmem with ⟨l, hl, hrl⟩
    cases l with
    | comment c =>
      simp only [removeLine, Option.some.injEq] at hrl
      exact HostsLine.noConfusion hrl
    | empty =>
      simp only [removeLine, Option.some.injEq] at hrl
      exact HostsLine.noConfusion hrl
    | entry a b c =>
      simp only [removeLine] at hrl
      split_ifs at hrl with h1 h2 h3
      · rw [Option.some.injEq, HostsLine.entry.injEq] at hrl
        intro hc
        rw [hc] at hrl
        rw [hrl.2.1] at h3
        simp at h3
      · rw [Option.some.injEq, HostsLine.entry.injEq] at hrl
        obtain ⟨rfl, rfl, rfl⟩ := hrl
        exact hinv _ _ _ hl
  · rcases exists_ip_or L ip with ⟨i, hi⟩ | h
    · obtain ⟨oldHs, oldC, hget⟩ := findIdxO_entry_shape hi
      rw [addEntry_of_ip_found hi hget]
      intro ip0 hs0 c0 hmem
      rcases mem_of_mem_set hmem with hm | hm
      · exact hinv _ _ _ hm
      · rw [HostsLine.entry.injEq] at hm
        rw [hm.2.1]
        exact dedupList_ne_nil fun hc2 =>
          dedupList_ne_nil hhs (List.append_eq_nil.1 hc2).2
    · rw [addEntry_of_no_ip h]
      intro ip0 hs0 c0 hmem
      rcases List.mem_append.1 hmem with hm | hm
      · exact hinv _ _ _ (List.take_subset _ _ hm)
      · rcases List.mem_cons.1 hm with hm | hm
        · rw [HostsLine.entry.injEq] at hm
          rw [hm.2.1]
          exact dedupList_ne_nil hhs
        · exact hinv _ _ _ (List.drop_subset _ _ hm)

/-- Witness for the amended C2 at concrete inputs. -/
theorem entriesNonempty_preserved_witness :
    entriesNonempty (removeEntry [HostsLine.entry "1.1.1.1" ["a", "b"] none] "a") ∧
    entriesNonempty (addEntry [HostsLine.entry "1.1.1.1" ["a", "b"] none]
      "2.2.2.2" ["c"]) := by
  apply entriesNonempty_preserved
  · intro ip hs c hmem
    rcases List.mem_cons.1 hmem with h | h
    · cases h
      decide
    · exact absurd h (List.not_mem_nil _)
  · decide

/-! ### Parser totality (claim C6) -/

theorem splitLinesAux_length_pos (l acc : List Char) :
    0 < (splitLinesAux l acc).length := by
  induction l, acc using splitLinesAux.induct with
  | case1 acc => rw [splitLinesAux.eq_def]; simp
  | case2 rest acc ih => rw [splitLinesAux.eq_def]; simp
  | case3 acc h ih => rw [splitLinesAux.eq_def]; simp [splitLinesAux]
  | case4 acc rest2 h ih => rw [splitLinesAux.eq_def]; simp
  | case5 acc c2 rest2 h1 h2 ih =>
    rw [splitLinesAux.eq_def]
    simpa [h1, h2] using ih
  | case6 c rest acc h1 h2 ih =>
    rw [splitLinesAux.eq_def]
    simpa [h1, h2] using ih

theorem tokenizeAux_ne_nil :
    ∀ (l acc : List Char), ∀ t ∈ tokenizeAux l acc, t ≠ [] := by
  intro l
  induction l with
  | nil =>
    intro acc t ht
    by_cases ha : acc = []
    · simp [tokenizeAux, ha] at ht
    · rw [tokenizeAux, if_neg ha] at ht
      rcases List.mem_singleton.1 ht with rfl
      simpa using ha
  | cons c rest ih =>
    intro acc t ht
    by_cases hw : isJsWhitespace c
    · by_cases ha : acc = []
      · rw [tokenizeAux, if_pos hw, if_pos ha] at ht
        exact ih [] t ht
      · rw [tokenizeAux, if_pos hw, if_neg ha] at ht
        rcases List.mem_cons.1 ht with rfl | ht
        · simpa using ha
        · exact ih [] t ht
    · rw [tokenizeAux, if_neg hw] at ht
      exact ih (c :: acc) t ht

theorem classifyData_singleton (dataPart : List Char) (ic : Option String) :
    ∃ l, classifyData dataPart ic = [l] := by
  by_cases hd : dataPart = []
  · exact ⟨HostsLine.comment (ic.getD ""), by rw [classifyData, if_pos hd]⟩
  · cases htok : tokenize dataPart with
    | nil => exact ⟨HostsLine.empty, by rw [classifyData, if_neg hd, htok]⟩
    | cons ip rest =>
      have hmemtok : ip ∈ tokenize dataPart := by
        rw [htok]
        exact List.mem_cons_self ip rest
      have hip : ip ≠ [] := tokenizeAux_ne_nil dataPart [] ip hmemtok
      refine ⟨HostsLine.entry (String.mk ip) (rest.map String.mk) ic, ?_⟩
      rw [classifyData, if_neg hd, htok]
      show (if ip = [] then []
        else [HostsLine.entry (String.mk ip) (rest.map String.mk) ic]) = _
      rw [if_neg hip]

theorem parseLine_singleton (raw : List Char) : ∃ l, parseLine raw = [l] := by
  by_cases ht : trimEnd raw = []
  · exact ⟨HostsLine.empty, by rw [parseLine, if_pos ht]⟩
  · cases hsp : splitFirstHash (trimEnd raw) with
    | none =>
      obtain ⟨l, hl⟩ := classifyData_singleton (trimEnd raw) none
      refine ⟨l, ?_⟩
      rw [parseLine, if_neg ht, hsp]
      exact hl
    | some pair =>
      obtain ⟨before, after⟩ := pair
      cases before with
      | nil =>
        refine ⟨HostsLine.comment (String.mk (trimStart after)), ?_⟩
        rw [parseLine, if_neg ht, hsp]
      | cons b bs =>
        obtain ⟨l, hl⟩ := classifyData_singleton (trimEnd (b :: bs))
          (some (String.mk (trimStart after)))
        refine ⟨l, ?_⟩
        rw [parseLine, if_neg ht, hsp]
        exact hl

theorem flatMap_length_singleton {f : α → List β} {L : List α}
    (h : ∀ x ∈ L, ∃ y, f x = [y]) : (L.flatMap f).length = L.length := by
  induction L with
  | nil => rfl
  | cons a t ih =>
    obtain ⟨y, hy⟩ := h a (List.mem_cons_self a t)
    rw [List.flatMap_cons, hy, List.length_append,
      ih fun x hx => h x (List.mem_cons_of_mem a hx)]
    simp only [List.length_cons, List.length_nil]
    omega

/-- C6: `parse` is total and never fails — the empty input yields exactly one
Empty line, every physical line yields exactly one Line record (malformed or
dataless lines degrade to Comment or Empty rather than erroring), and the
output has one Line per physical input line (hence is never empty). -/
theorem parse_total :
    parse "" = [HostsLine.empty] ∧
    (∀ raw : List Char, ∃ l : HostsLine, parseLine raw = [l]) ∧
    ∀ s : String, (parse s).length = (splitLines s.data).length ∧
      0 < (parse s).length := by
  refine ⟨by decide, parseLine_singleton, fun s => ?_⟩
  have h1 : (parse s).length = (splitLines s.data).length :=
    flatMap_length_singleton fun x _ => parseLine_singleton x
  exact ⟨h1, h1 ▸ splitLinesAux_length_pos s.data []⟩

/-! ### CRLF tolerance (claim C7) -/

/-- The CRLF-terminated form of a string: every `\n` written as `\r\n`. -/
def lfToCrlf : List Char → List Char
  | [] => []
  | c :: rest => if c = '\n' then '\r' :: '\n' :: lfToCrlf rest else c :: lfToCrlf rest

/-- Two physical lines that differ at most by one trailing carriage return
(which `trimEnd` erases before classification). -/
def crRel (a b : List Char) : Prop :=
  a = b ∨ a = b ++ ['\r'] ∨ b = a ++ ['\r']

theorem trimEnd_append_cr (l : List Char) : trimEnd (l ++ ['\r']) = trimEnd l := by
  have hrev : (l ++ ['\r']).reverse = '\r' :: l.reverse := by simp
  rw [trimEnd, hrev, List.dropWhile_cons,
    if_pos (show isJsWhitespace '\r' = true by decide)]
  rfl

theorem parseLine_append_cr (l : List Char) : parseLine (l ++ ['\r']) = parseLine l := by
  rw [parseLine, parseLine, trimEnd_append_cr]

theorem crRel_parseLine {a b : List Char} (h : crRel a b) : parseLine a = parseLine b := by
  rcases h with rfl | rfl | rfl
  · rfl
  · exact parseLine_append_cr b
  · exact (parseLine_append_cr a).symm

theorem flatMap_congr_crRel {L1 L2 : List (List Char)}
    (h : List.Forall₂ crRel L1 L2) :
    L1.flatMap parseLine = L2.flatMap parseLine := by
  induction h with
  | nil => rfl
  | cons hab htail ih =>
    rw [List.flatMap_cons, List.flatMap_cons, crRel_parseLine hab, ih]

theorem splitLinesAux_lfToCrlf (l acc : List Char) :
    List.Forall₂ crRel (splitLinesAux (lfToCrlf l) acc) (splitLinesAux l acc) := by
  induction l, acc using splitLinesAux.induct with
  | case1 acc =>
    exact List.Forall₂.cons (Or.inl rfl) List.Forall₂.nil
  | case2 rest acc ih =>
    have he : lfToCrlf ('\n' :: rest) = '\r' :: '\n' :: lfToCrlf rest := by
      rw [lfToCrlf, if_pos rfl]
    rw [he]
    rw [show splitLinesAux ('\r' :: '\n' :: lfToCrlf rest) acc =
        acc.reverse :: splitLinesAux (lfToCrlf rest) [] from by
      rw [splitLinesAux.eq_def]; simp]
    rw [show splitLinesAux ('\n' :: rest) acc =
        acc.reverse :: splitLinesAux rest [] from by
      rw [splitLinesAux.eq_def]; simp]
    exact List.Forall₂.cons (Or.inl rfl) ih
  | case3 acc h ih =>
    have he : lfToCrlf ['\r'] = ['\r'] := by rw [lfToCrlf, if_neg h, lfToCrlf]
    rw [he]
    exact List.Forall₂.cons (Or.inl rfl) List.Forall₂.nil
  | case4 acc rest2 h ih =>
    have he : lfToCrlf ('\r' :: '\n' :: rest2) =
        '\r' :: '\r' :: '\n' :: lfToCrlf rest2 := by
      rw [lfToCrlf, if_neg h, lfToCrlf, if_pos rfl]
    rw [he]
    rw [show splitLinesAux ('\r' :: '\r' :: '\n' :: lfToCrlf rest2) acc =
        ('\r' :: acc).reverse :: splitLinesAux (lfToCrlf rest2) [] from by
      rw [splitLinesAux.eq_def]
      simp [splitLinesAux]]
    rw [show splitLinesAux ('\r' :: '\n' :: rest2) acc =
        acc.reverse :: splitLinesAux rest2 [] from by
      rw [splitLinesAux.eq_def]; simp]
    refine List.Forall₂.cons (Or.inr (Or.inl (by simp))) ih
  | case5 acc c2 rest2 h1 h2 ih =>
    have he : lfToCrlf ('\r' :: c2 :: rest2) = '\r' :: lfToCrlf (c2 :: rest2) := by
      rw [lfToCrlf, if_neg h2]
    have he2 : lfToCrlf (c2 :: rest2) = c2 :: lfToCrlf rest2 := by
      rw [lfToCrlf, if_neg h1]
    rw [he, he2]
    rw [show splitLinesAux ('\r' :: c2 :: lfToCrlf rest2) acc =
        splitLinesAux (c2 :: lfToCrlf rest2) ('\r' :: acc) from by
      rw [splitLinesAux.eq_def]
      simp [h1]]
    rw [show splitLinesAux ('\r' :: c2 :: rest2) acc =
        splitLinesAux (c2 :: rest2) ('\r' :: acc) from by
      rw [splitLinesAux.eq_def]
      simp [h1]]
    rw [← he2]
    exact ih
  | case6 c rest acc h1 h2 ih =>
    have he : lfToCrlf (c :: rest) = c :: lfToCrlf rest := by
      rw [lfToCrlf, if_neg h1]
    rw [he]
    rw [show splitLinesAux (c :: lfToCrlf rest) acc =
        splitLinesAux (lfToCrlf rest) (c :: acc) from by
      rw [splitLinesAux.eq_def]
      simp [h1, h2]]
    rw [show splitLinesAux (c :: rest) acc =
        splitLinesAux rest (c :: acc) from by
      rw [splitLinesAux.eq_def]
      simp [h1, h2]]
    exact ih

theorem splitLinesAux_append_newline (l acc : List Char) :
    List.Forall₂ crRel (splitLinesAux (l ++ ['\n']) acc)
      (splitLinesAux l acc ++ [[]]) := by
  induction l, acc using splitLinesAux.induct with
  | case1 acc =>
    rw [show ([] : List Char) ++ ['\n'] = ['\n'] from rfl]
    rw [show splitLinesAux ['\n'] acc = acc.reverse :: splitLinesAux [] [] from by
      rw [splitLinesAux.eq_def]; simp]
    exact List.Forall₂.cons (Or.inl rfl) (List.Forall₂.cons (Or.inl rfl) List.Forall₂.nil)
  | case2 rest acc ih =>
    rw [List.cons_append]
    rw [show splitLinesAux ('\n' :: (rest ++ ['\n'])) acc =
        acc.reverse :: splitLinesAux (rest ++ ['\n']) [] from by
      rw [splitLinesAux.eq_def]; simp]
    rw [show splitLinesAux ('\n' :: rest) acc =
        acc.reverse :: splitLinesAux rest [] from by
      rw [splitLinesAux.eq_def]; simp]
    exact List.Forall₂.cons (Or.inl rfl) ih
  | case3 acc h ih =>
    rw [show ['\r'] ++ ['\n'] = ['\r', '\n'] from rfl]
    rw [show splitLinesAux ['\r', '\n'] acc =
        acc.reverse :: splitLinesAux [] [] from by
      rw [splitLinesAux.eq_def]; simp]
    rw [show splitLinesAux ['\r'] acc = [('\r' :: acc).reverse] from by
      rw [splitLinesAux.eq_def]; simp [splitLinesAux]]
    exact List.Forall₂.cons (Or.inr (Or.inr (by simp))) (List.Forall₂.cons (Or.inl rfl) List.Forall₂.nil)
  | case4 acc rest2 h ih =>
    rw [List.cons_append, List.cons_append]
    rw [show splitLinesAux ('\r' :: '\n' :: (rest2 ++ ['\n'])) acc =
        acc.reverse :: splitLinesAux (rest2 ++ ['\n']) [] from by
      rw [splitLinesAux.eq_def]; simp]
    rw [show splitLinesAux ('\r' :: '\n' :: rest2) acc =
        acc.reverse :: splitLinesAux rest2 [] from by
      rw [splitLinesAux.eq_def]; simp]
    exact List.Forall₂.cons (Or.inl rfl) ih
  | case5 acc c2 rest2 h1 h2 ih =>
    rw [List.cons_append, List.cons_append]
    rw [show splitLinesAux ('\r' :: c2 :: (rest2 ++ ['\n'])) acc =
        splitLinesAux (c2 :: (rest2 ++ ['\n'])) ('\r' :: acc) from by
      rw [splitLinesAux.eq_def]
      simp [h1]]
    rw [show splitLinesAux ('\r' :: c2 :: rest2) acc =
        splitLinesAux (c2 :: rest2) ('\r' :: acc) from by
      rw [splitLinesAux.eq_def]
      simp [h1]]
    rw [← List.cons_append]
    exact ih
  | case6 c rest acc h1 h2 ih =>
    rw [List.cons_append]
    rw [show splitLinesAux (c :: (rest ++ ['\n'])) acc =
        splitLinesAux (rest ++ ['\n']) (c :: acc) from by
      rw [splitLinesAux.eq_def]
      simp [h1, h2]]
    rw [show splitLinesAux (c :: rest) acc =
        splitLinesAux rest (c :: acc) from by
      rw [splitLinesAux.eq_def]
      simp [h1, h2]]
    exact ih

/-- C7: `parse` recognizes both LF and CRLF line boundaries and normalizes
away the carriage return — writing every `\n` of any input as `\r\n` leaves
the parsed Line sequence unchanged, a trailing line break contributes a
trailing Empty line, and the concrete CRLF example parses to two entries
plus one Empty. -/
theorem parse_crlf :
    (∀ s : String, parse (String.mk (lfToCrlf s.data)) = parse s) ∧
    (∀ s : String, parse (String.mk (s.data ++ ['\n'])) = parse s ++ [HostsLine.empty]) ∧
    parse "127.0.0.1\tlocalhost\r\n192.168.1.1\thost\r\n" =
      [HostsLine.entry "127.0.0.1" ["localhost"] none,
        HostsLine.entry "192.168.1.1" ["host"] none, HostsLine.empty] := by
  refine ⟨fun s => ?_, fun s => ?_, by decide⟩
  · exact flatMap_congr_crRel (splitLinesAux_lfToCrlf s.data [])
  · have h := flatMap_congr_crRel (splitLinesAux_append_newline s.data [])
    rw [List.flatMap_append] at h
    exact h

/-! ### Round-trip infrastructure (claim C1): trimming and getLast? facts -/

theorem headq_mem {l : List α} {c : α} (h : l.head? = some c) : c ∈ l := by
  cases l with
  | nil => simp at h
  | cons a t =>
    rw [List.head?_cons, Option.some.injEq] at h
    exact h ▸ List.mem_cons_self a t

theorem getLastq_mem {l : List α} {c : α} (h : l.getLast? = some c) : c ∈ l := by
  rw [← List.head?_reverse] at h
  exact List.mem_reverse.1 (headq_mem h)

theorem length_dropWhile_le (p : α → Bool) (l : List α) :
    (l.dropWhile p).length ≤ l.length := by
  induction l with
  | nil => exact Nat.le_refl _
  | cons a t ih =>
    rw [List.dropWhile_cons]
    by_cases hp : p a = true
    · rw [if_pos hp]
      exact Nat.le_succ_of_le ih
    · rw [if_neg hp]

theorem dropWhile_eq_self_of_headq {p : α → Bool} {l : List α}
    (h : ∀ c, l.head? = some c → p c = false) : l.dropWhile p = l := by
  cases l with
  | nil => rfl
  | cons a t => rw [List.dropWhile_cons, if_neg (by simp [h a rfl])]

theorem headq_of_dropWhile_eq_self {p : α → Bool} {l : List α}
    (h : l.dropWhile p = l) : ∀ c, l.head? = some c → p c = false := by
  intro c hc
  cases l with
  | nil => simp at hc
  | cons a t =>
    rw [List.head?_cons, Option.some.injEq] at hc
    subst hc
    by_contra hp
    rw [Bool.not_eq_false] at hp
    rw [List.dropWhile_cons, if_pos hp] at h
    have h2 := length_dropWhile_le p t
    rw [h] at h2
    simp only [List.length_cons] at h2
    omega

theorem mem_of_dropWhile {p : α → Bool} {l : List α} {c : α}
    (h : c ∈ l.dropWhile p) : c ∈ l := by
  induction l with
  | nil => simp at h
  | cons a t ih =>
    rw [List.dropWhile_cons] at h
    by_cases hp : p a = true
    · rw [if_pos hp] at h
      exact List.mem_cons_of_mem a (ih h)
    · rw [if_neg hp] at h
      exact h

theorem trimEnd_eq_self_iff {l : List Char} :
    trimEnd l = l ↔ ∀ c, l.getLast? = some c → isJsWhitespace c = false := by
  constructor
  · intro h c hc
    have h2 : l.reverse.dropWhile isJsWhitespace = l.reverse := by
      have := congrArg List.reverse h
      rwa [trimEnd, List.reverse_reverse] at this
    rw [← List.head?_reverse] at hc
    exact headq_of_dropWhile_eq_self h2 c hc
  · intro h
    rw [trimEnd, dropWhile_eq_self_of_headq fun c hc =>
      h c (by rwa [← List.head?_reverse]), List.reverse_reverse]

theorem trimEnd_idem (l : List Char) : trimEnd (trimEnd l) = trimEnd l := by
  rw [trimEnd, trimEnd, List.reverse_reverse, List.dropWhile_idempotent]

theorem trimStart_idem (l : List Char) : trimStart (trimStart l) = trimStart l :=
  List.dropWhile_idempotent _ _

theorem mem_trimEnd {l : List Char} {c : Char} (h : c ∈ trimEnd l) : c ∈ l := by
  rw [trimEnd, List.mem_reverse] at h
  exact List.mem_reverse.1 (mem_of_dropWhile h)

theorem mem_trimStart {l : List Char} {c : Char} (h : c ∈ trimStart l) : c ∈ l :=
  mem_of_dropWhile h

theorem getLastq_append {a b : List α} (h : b ≠ []) :
    (a ++ b).getLast? = b.getLast? := by
  rw [← List.head?_reverse, ← List.head?_reverse, List.reverse_append]
  cases hb : b.reverse with
  | nil => exact absurd (by simpa using hb) h
  | cons x t => rw [List.cons_append, List.head?_cons, List.head?_cons]

theorem getLastq_cons_of_ne_nil {a : α} {t : List α} (h : t ≠ []) :
    (a :: t).getLast? = t.getLast? := by
  rw [show a :: t = [a] ++ t from rfl]
  exact getLastq_append h

theorem trimEnd_fix_suffix {a b l : List Char} (h : trimEnd l = l)
    (hab : l = a ++ b) : trimEnd b = b := by
  cases hb : b with
  | nil => rfl
  | cons x t =>
    rw [trimEnd_eq_self_iff]
    intro c hc
    refine (trimEnd_eq_self_iff.1 h) c ?_
    rw [hab, getLastq_append (by simp [hb]), hb, hc]

theorem trimEnd_trimStart_fix {l : List Char} (h : trimEnd l = l) :
    trimEnd (trimStart l) = trimStart l :=
  trimEnd_fix_suffix h (List.takeWhile_append_dropWhile isJsWhitespace l).symm

/-! ### splitFirstHash characterization -/

theorem splitFirstHash_none {l : List Char} :
    splitFirstHash l = none ↔ ¬ '#' ∈ l := by
  induction l with
  | nil => simp [splitFirstHash]
  | cons c rest ih =>
    by_cases hc : c = '#'
    · subst hc
      simp [splitFirstHash]
    · rw [splitFirstHash, if_neg hc]
      cases hr : splitFirstHash rest with
      | none =>
        simp only [List.mem_cons]
        constructor
        · intro _
          rintro (h2 | h2)
          · exact hc h2.symm
          · exact ih.1 hr h2
        · intro _
          trivial
      | some pair =>
        obtain ⟨a, b⟩ := pair
        simp only [List.mem_cons]
        constructor
        · intro hcontra
          exact Option.noConfusion hcontra
        · intro hmem
          exfalso
          have hnr : ¬ '#' ∈ rest := fun hm => hmem (Or.inr hm)
          rw [← ih] at hnr
          rw [hnr] at hr
          exact Option.noConfusion hr

theorem splitFirstHash_some {l b a : List Char}
    (h : splitFirstHash l = some (b, a)) : l = b ++ '#' :: a ∧ ¬ '#' ∈ b := by
  induction l generalizing b a with
  | nil => simp [splitFirstHash] at h
  | cons c rest ih =>
    by_cases hc : c = '#'
    · subst hc
      rw [splitFirstHash, if_pos rfl, Option.some.injEq, Prod.mk.injEq] at h
      obtain ⟨h1, h2⟩ := h
      subst h1
      subst h2
      exact ⟨rfl, List.not_mem_nil _⟩
    · rw [splitFirstHash, if_neg hc] at h
      cases hr : splitFirstHash rest with
      | none =>
        rw [hr] at h
        exact Option.noConfusion h
      | some pair =>
        obtain ⟨a0, b0⟩ := pair
        rw [hr] at h
        simp only [Option.some.injEq, Prod.mk.injEq] at h
        obtain ⟨h1, h2⟩ := h
        subst h2
        obtain ⟨hrest, hmem⟩ := ih hr
        subst h1
        constructor
        · rw [hrest, List.cons_append]
        · intro hin
          rcases List.mem_cons.1 hin with h2 | h2
          · exact hc h2.symm
          · exact hmem h2

theorem splitFirstHash_append {a b : List Char} (h : ¬ '#' ∈ a) :
    splitFirstHash (a ++ '#' :: b) = some (a, b) := by
  induction a with
  | nil => rw [List.nil_append, splitFirstHash, if_pos rfl]
  | cons c rest ih =>
    have hc : ¬ c = '#' := fun hc => h (hc ▸ List.mem_cons_self c rest)
    rw [List.cons_append, splitFirstHash, if_neg hc,
      ih fun hm => h (List.mem_cons_of_mem c hm)]

/-! ### Token soundness and joinWith lemmas -/

theorem joinWith_cons_cons (sep : Char) (t t2 : List Char) (ts : List (List Char)) :
    joinWith sep (t :: t2 :: ts) = t ++ sep :: joinWith sep (t2 :: ts) := by
  rw [joinWith]
  exact fun h => List.noConfusion h

theorem tokenizeAux_sound (Q : Char → Prop) :
    ∀ (l acc : List Char), (∀ c ∈ l, Q c) →
      (∀ c ∈ acc, Q c ∧ isJsWhitespace c = false) →
      ∀ t ∈ tokenizeAux l acc, ∀ c ∈ t, Q c ∧ isJsWhitespace c = false := by
  intro l
  induction l with
  | nil =>
    intro acc _ hacc t ht c hc
    by_cases ha : acc = []
    · rw [tokenizeAux, if_pos ha] at ht
      simp at ht
    · rw [tokenizeAux, if_neg ha] at ht
      rcases List.mem_singleton.1 ht with rfl
      exact hacc c (List.mem_reverse.1 hc)
  | cons x rest ih =>
    intro acc hl hacc t ht c hc
    have hx : Q x := hl x (List.mem_cons_self x rest)
    have hrest : ∀ c ∈ rest, Q c := fun c hc => hl c (List.mem_cons_of_mem x hc)
    by_cases hw : isJsWhitespace x
    · by_cases ha : acc = []
      · rw [tokenizeAux, if_pos hw, if_pos ha] at ht
        exact ih [] hrest (by simp) t ht c hc
      · rw [tokenizeAux, if_pos hw, if_neg ha] at ht
        rcases List.mem_cons.1 ht with rfl | ht
        · exact hacc c (List.mem_reverse.1 hc)
        · exact ih [] hrest (by simp) t ht c hc
    · rw [tokenizeAux, if_neg hw] at ht
      refine ih (x :: acc) hrest ?_ t ht c hc
      intro d hd
      rcases List.mem_cons.1 hd with rfl | hd
      · exact ⟨hx, by simpa using hw⟩
      · exact hacc d hd

theorem tokenizeAux_nonws_prefix {t : List Char}
    (h : ∀ c ∈ t, isJsWhitespace c = false) :
    ∀ rest acc, tokenizeAux (t ++ rest) acc = tokenizeAux rest (t.reverse ++ acc) := by
  induction t with
  | nil => intro rest acc; rfl
  | cons c t2 ih =>
    intro rest acc
    have hc : isJsWhitespace c = false := h c (List.mem_cons_self c t2)
    rw [List.cons_append, tokenizeAux, if_neg (by simp [hc]),
      ih (fun d hd => h d (List.mem_cons_of_mem c hd)) rest (c :: acc),
      List.reverse_cons, List.append_assoc]
    rfl

theorem tokenize_joinWith_tab {ts : List (List Char)}
    (h1 : ∀ t ∈ ts, t ≠ [])
    (h2 : ∀ t ∈ ts, ∀ c ∈ t, isJsWhitespace c = false) :
    tokenize (joinWith '\t' ts) = ts := by
  induction ts with
  | nil => rfl
  | cons t ts2 ih =>
    cases ts2 with
    | nil =>
      rw [joinWith, tokenize, ← List.append_nil t,
        tokenizeAux_nonws_prefix (fun c hc => h2 t (List.mem_cons_self t []) c hc),
        List.append_nil, List.append_nil, tokenizeAux,
        if_neg (by simpa using h1 t (List.mem_cons_self t [])), List.reverse_reverse]
    | cons t2 ts3 =>
      rw [joinWith_cons_cons, tokenize,
        tokenizeAux_nonws_prefix (fun c hc => h2 t (List.mem_cons_self t _) c hc),
        List.append_nil, tokenizeAux,
        if_pos (show isJsWhitespace '\t' = true by decide),
        if_neg (by simpa using h1 t (List.mem_cons_self t _)), List.reverse_reverse]
      rw [show tokenizeAux (joinWith '\t' (t2 :: ts3)) [] = tokenize (joinWith '\t' (t2 :: ts3)) from rfl,
        ih (fun u hu => h1 u (List.mem_cons_of_mem t hu))
          (fun u hu c hc => h2 u (List.mem_cons_of_mem t hu) c hc)]

theorem mem_joinWith {sep : Char} {ts : List (List Char)} {c : Char}
    (h : c ∈ joinWith sep ts) : c = sep ∨ ∃ t ∈ ts, c ∈ t := by
  induction ts with
  | nil => simp [joinWith] at h
  | cons t ts2 ih =>
    cases ts2 with
    | nil =>
      rw [joinWith] at h
      exact Or.inr ⟨t, List.mem_cons_self t [], h⟩
    | cons t2 ts3 =>
      rw [joinWith_cons_cons] at h
      rcases List.mem_append.1 h with hm | hm
      · exact Or.inr ⟨t, List.mem_cons_self t _, hm⟩
      · rcases List.mem_cons.1 hm with rfl | hm
        · exact Or.inl rfl
        · rcases ih hm with hl | ⟨u, hu, hc⟩
          · exact Or.inl hl
          · exact Or.inr ⟨u, List.mem_cons_of_mem t hu, hc⟩

theorem joinWith_ne_nil {sep : Char} {t : List Char} {ts : List (List Char)}
    (h : t ≠ []) : joinWith sep (t :: ts) ≠ [] := by
  cases ts with
  | nil => exact h
  | cons t2 ts3 =>
    rw [joinWith_cons_cons]
    intro hc
    rcases List.append_eq_nil.1 hc with ⟨h1, h2⟩
    exact List.cons_ne_nil _ _ h2

theorem joinWith_tab_last {ts : List (List Char)}
    (h1 : ∀ t ∈ ts, t ≠ [])
    (h2 : ∀ t ∈ ts, ∀ c, t.getLast? = some c → isJsWhitespace c = false) :
    ∀ c, (joinWith '\t' ts).getLast? = some c → isJsWhitespace c = false := by
  induction ts with
  | nil => intro c hc; simp [joinWith] at hc
  | cons t ts2 ih =>
    cases ts2 with
    | nil =>
      intro c hc
      exact h2 t (List.mem_cons_self t []) c hc
    | cons t2 ts3 =>
      intro c hc
      rw [joinWith_cons_cons, getLastq_append (List.cons_ne_nil _ _),
        getLastq_cons_of_ne_nil (joinWith_ne_nil (h1 t2 (by simp)))] at hc
      exact ih (fun u hu => h1 u (List.mem_cons_of_mem t hu))
        (fun u hu c hc => h2 u (List.mem_cons_of_mem t hu) c hc) c hc

/-! ### Well-formedness of parse output -/

/-- A data token as produced by `tokenize` on a hash-free data part:
non-empty, no whitespace, no `#`. -/
def wfToken (t : List Char) : Prop :=
  t ≠ [] ∧ ∀ c ∈ t, isJsWhitespace c = false ∧ c ≠ '#'

/-- A comment text as produced by the parser: trim-fixed on both ends and
newline-free. -/
def wfText (s : String) : Prop :=
  trimStart s.data = s.data ∧ trimEnd s.data = s.data ∧ ¬ '\n' ∈ s.data

/-- Lines in the image of `parseLine`: exactly the shape needed for the
serialize-then-reparse round trip. -/
def WFLine : HostsLine → Prop
  | HostsLine.empty => True
  | HostsLine.comment s => wfText s
  | HostsLine.entry ip hs c =>
      wfToken ip.data ∧ (∀ h ∈ hs, wfToken h.data) ∧ ∀ s, c = some s → wfText s

theorem splitLinesAux_no_newline (l acc : List Char) (hacc : ¬ '\n' ∈ acc) :
    ∀ line ∈ splitLinesAux l acc, ¬ '\n' ∈ line := by
  induction l, acc using splitLinesAux.induct with
  | case1 acc =>
    intro line hline
    rw [splitLinesAux] at hline
    rcases List.mem_singleton.1 hline with rfl
    simpa using hacc
  | case2 rest acc ih =>
    intro line hline
    rw [show splitLinesAux ('\n' :: rest) acc = acc.reverse :: splitLinesAux rest [] from by
      rw [splitLinesAux.eq_def]; simp] at hline
    rcases List.mem_cons.1 hline with rfl | hline
    · simpa using hacc
    · exact ih (by simp) line hline
  | case3 acc h ih =>
    intro line hline
    rw [show splitLinesAux ['\r'] acc = [('\r' :: acc).reverse] from by
      rw [splitLinesAux.eq_def]; simp [splitLinesAux]] at hline
    rcases List.mem_singleton.1 hline with rfl
    simp only [List.mem_reverse, List.mem_cons]
    rintro (hc | hc)
    · exact absurd hc.symm (by decide)
    · exact hacc hc
  | case4 acc rest2 h ih =>
    intro line hline
    rw [show splitLinesAux ('\r' :: '\n' :: rest2) acc =
        acc.reverse :: splitLinesAux rest2 [] from by
      rw [splitLinesAux.eq_def]; simp] at hline
    rcases List.mem_cons.1 hline with rfl | hline
    · simpa using hacc
    · exact ih (by simp) line hline
  | case5 acc c2 rest2 h1 h2 ih =>
    intro line hline
    rw [show splitLinesAux ('\r' :: c2 :: rest2) acc =
        splitLinesAux (c2 :: rest2) ('\r' :: acc) from by
      rw [splitLinesAux.eq_def]; simp [h1]] at hline
    refine ih ?_ line hline
    simp only [List.mem_cons]
    rintro (hc | hc)
    · exact absurd hc.symm (by decide)
    · exact hacc hc
  | case6 c rest acc h1 h2 ih =>
    intro line hline
    rw [show splitLinesAux (c :: rest) acc =
        splitLinesAux rest (c :: acc) from by
      rw [splitLinesAux.eq_def]; simp [h1, h2]] at hline
    refine ih ?_ line hline
    simp only [List.mem_cons]
    rintro (hc | hc)
    · exact h1 hc.symm
    · exact hacc hc

theorem classifyData_WF {dataPart : List Char} {ic : Option String}
    (hh : ¬ '#' ∈ dataPart)
    (hic : ∀ s, ic = some s → wfText s) :
    ∀ l ∈ classifyData dataPart ic, WFLine l := by
  intro l hl
  by_cases hd : dataPart = []
  · rw [classifyData, if_pos hd] at hl
    rcases List.mem_singleton.1 hl with rfl
    cases hi : ic with
    | none => exact ⟨rfl, rfl, List.not_mem_nil _⟩
    | some s => exact hic s hi
  · cases htok : tokenize dataPart with
    | nil =>
      have heq : classifyData dataPart ic = [HostsLine.empty] := by
        rw [classifyData, if_neg hd, htok]
      rw [heq] at hl
      rcases List.mem_singleton.1 hl with rfl
      trivial
    | cons ip rest =>
      have hip : ip ≠ [] := tokenizeAux_ne_nil dataPart [] ip
        (by rw [show tokenizeAux dataPart [] = tokenize dataPart from rfl, htok]
            exact List.mem_cons_self ip rest)
      have hQ : ∀ c ∈ dataPart, ¬ c = '#' := fun c hc2 he => hh (he ▸ hc2)
      have hsound := tokenizeAux_sound (fun c => ¬ c = '#') dataPart [] hQ (by simp)
      have heq : classifyData dataPart ic =
          [HostsLine.entry (String.mk ip) (rest.map String.mk) ic] := by
        rw [classifyData, if_neg hd, htok]
        show (if ip = [] then []
          else [HostsLine.entry (String.mk ip) (rest.map String.mk) ic]) = _
        rw [if_neg hip]
      rw [heq] at hl
      rcases List.mem_singleton.1 hl with rfl
      refine ⟨⟨hip, ?_⟩, ?_, fun s hs => hic s hs⟩
      · intro c hc
        have h3 := hsound ip
          (by rw [show tokenizeAux dataPart [] = tokenize dataPart from rfl, htok]
              exact List.mem_cons_self ip rest) c hc
        exact ⟨h3.2, h3.1⟩
      · intro h hmem
        rcases List.mem_map.1 hmem with ⟨t, htmem, rfl⟩
        have htin : t ∈ tokenizeAux dataPart [] := by
          rw [show tokenizeAux dataPart [] = tokenize dataPart from rfl, htok]
          exact List.mem_cons_of_mem ip htmem
        refine ⟨fun hc => ?_, fun c hc => ?_⟩
        · exact tokenizeAux_ne_nil dataPart [] t htin hc
        · have h3 := hsound t htin c hc
          exact ⟨h3.2, h3.1⟩

theorem parseLine_WF {raw : List Char} (hnl : ¬ '\n' ∈ raw) :
    ∀ l ∈ parseLine raw, WFLine l := by
  intro l hl
  have htrim : trimEnd (trimEnd raw) = trimEnd raw := trimEnd_idem raw
  have hnl2 : ¬ '\n' ∈ trimEnd raw := fun hc => hnl (mem_trimEnd hc)
  by_cases ht : trimEnd raw = []
  · rw [parseLine, if_pos ht] at hl
    rcases List.mem_singleton.1 hl with rfl
    trivial
  · cases hsp : splitFirstHash (trimEnd raw) with
    | none =>
      have hh : ¬ '#' ∈ trimEnd raw := splitFirstHash_none.1 hsp
      have heq : parseLine raw = classifyData (trimEnd raw) none := by
        rw [parseLine, if_neg ht, hsp]
      rw [heq] at hl
      exact classifyData_WF hh (fun s hs => Option.noConfusion hs) l hl
    | some pair =>
      obtain ⟨before, after⟩ := pair
      obtain ⟨hsplit, hnb⟩ := splitFirstHash_some hsp
      have hafter_fix : trimEnd after = after := by
        refine trimEnd_fix_suffix (a := before ++ ['#']) (b := after) htrim ?_
        rw [hsplit, List.append_assoc]
        rfl
      have hafter_nl : ¬ '\n' ∈ after := fun hc =>
        hnl2 (by rw [hsplit]
                 exact List.mem_append.2 (Or.inr (List.mem_cons_of_mem _ hc)))
      have hwf_ic : wfText (String.mk (trimStart after)) :=
        ⟨trimStart_idem after, trimEnd_trimStart_fix hafter_fix,
          fun hc => hafter_nl (mem_trimStart hc)⟩
      cases before with
      | nil =>
        have heq : parseLine raw = [HostsLine.comment (String.mk (trimStart after))] := by
          rw [parseLine, if_neg ht, hsp]
        rw [heq] at hl
        rcases List.mem_singleton.1 hl with rfl
        exact hwf_ic
      | cons b bs =>
        have heq : parseLine raw =
            classifyData (trimEnd (b :: bs)) (some (String.mk (trimStart after))) := by
          rw [parseLine, if_neg ht, hsp]
        rw [heq] at hl
        refine classifyData_WF (fun hc => hnb (mem_trimEnd hc)) ?_ l hl
        intro s hs
        rw [Option.some.injEq] at hs
        exact hs ▸ hwf_ic

theorem parse_WF (s : List Char) : ∀ l ∈ parseL s, WFLine l := by
  intro l hl
  rw [parseL] at hl
  rcases List.mem_flatMap.1 hl with ⟨raw, hraw, hlp⟩
  exact parseLine_WF (splitLinesAux_no_newline s [] (by simp) raw hraw) l hlp

/-! ### Character facts about serializeLine output -/

theorem data_eq_nil_iff {s : String} : s.data = [] ↔ s = "" := by
  cases s with
  | mk d =>
    constructor
    · intro h
      have h2 : d = [] := h
      subst h2
      rfl
    · intro h
      rw [h]

theorem entry_tokens_ne_nil {ip : String} {hs : List String}
    (hip : wfToken ip.data) (hhs : ∀ h ∈ hs, wfToken h.data) :
    ∀ t ∈ ip.data :: hs.map String.data, t ≠ [] := by
  intro t ht
  rcases List.mem_cons.1 ht with rfl | ht2
  · exact hip.1
  · rcases List.mem_map.1 ht2 with ⟨u, hu, rfl⟩
    exact (hhs u hu).1

theorem entry_tokens_nonws {ip : String} {hs : List String}
    (hip : wfToken ip.data) (hhs : ∀ h ∈ hs, wfToken h.data) :
    ∀ t ∈ ip.data :: hs.map String.data, ∀ c ∈ t, isJsWhitespace c = false := by
  intro t ht c hc
  rcases List.mem_cons.1 ht with rfl | ht2
  · exact (hip.2 c hc).1
  · rcases List.mem_map.1 ht2 with ⟨u, hu, rfl⟩
    exact ((hhs u hu).2 c hc).1

theorem serializeLine_no_newline {l : HostsLine} (h : WFLine l) :
    ¬ '\n' ∈ serializeLine l := by
  cases l with
  | empty => simp [serializeLine]
  | comment s =>
    by_cases hs : s = ""
    · rw [serializeLine, if_pos hs]
      intro hc
      rcases List.mem_singleton.1 hc with he
      exact absurd he (by decide)
    · rw [serializeLine, if_neg hs]
      intro hc
      rcases List.mem_cons.1 hc with he | hc2
      · exact absurd he (by decide)
      · rcases List.mem_cons.1 hc2 with he | hc3
        · exact absurd he (by decide)
        · exact h.2.2 hc3
  | entry ip hs c =>
    obtain ⟨hip, hhs, hc⟩ := h
    have hmain : ¬ '\n' ∈ joinWith '\t' (ip.data :: hs.map String.data) := by
      intro hm
      rcases mem_joinWith hm with he | ⟨t, ht, hct⟩
      · exact absurd he (by decide)
      · have := entry_tokens_nonws hip hhs t ht '\n' hct
        exact absurd this (by decide)
    cases c with
    | none => exact hmain
    | some s =>
      by_cases hs0 : s = ""
      · have heq : serializeLine (HostsLine.entry ip hs (some s)) =
            joinWith '\t' (ip.data :: hs.map String.data) := by
          simp only [serializeLine, if_pos hs0]
        rw [heq]
        exact hmain
      · have heq : serializeLine (HostsLine.entry ip hs (some s)) =
            joinWith '\t' (ip.data :: hs.map String.data) ++
              '\t' :: '#' :: ' ' :: s.data := by
          simp only [serializeLine, if_neg hs0]
        rw [heq]
        intro hcm
        rcases List.mem_append.1 hcm with hm | hm
        · exact hmain hm
        · rcases List.mem_cons.1 hm with he | hm2
          · exact absurd he (by decide)
          · rcases List.mem_cons.1 hm2 with he | hm3
            · exact absurd he (by decide)
            · rcases List.mem_cons.1 hm3 with he | hm4
              · exact absurd he (by decide)
              · exact (hc s rfl).2.2 hm4

theorem serializeLine_last {l : HostsLine} (h : WFLine l) :
    ∀ c, (serializeLine l).getLast? = some c → isJsWhitespace c = false := by
  cases l with
  | empty =>
    intro c hc
    simp [serializeLine] at hc
  | comment s =>
    intro c hc
    by_cases hs : s = ""
    · rw [serializeLine, if_pos hs] at hc
      rw [show (['#'] : List Char).getLast? = some '#' from rfl,
        Option.some.injEq] at hc
      subst hc
      decide
    · have hdata : s.data ≠ [] := fun hd => hs (data_eq_nil_iff.1 hd)
      rw [serializeLine, if_neg hs,
        getLastq_cons_of_ne_nil (List.cons_ne_nil _ _),
        getLastq_cons_of_ne_nil hdata] at hc
      exact trimEnd_eq_self_iff.1 h.2.1 c hc
  | entry ip hs c =>
    obtain ⟨hip, hhs, hcwf⟩ := h
    have hmain : ∀ c, (joinWith '\t' (ip.data :: hs.map String.data)).getLast? =
        some c → isJsWhitespace c = false :=
      joinWith_tab_last (entry_tokens_ne_nil hip hhs)
        (fun t ht c hc => entry_tokens_nonws hip hhs t ht c (getLastq_mem hc))
    intro c0 hc0
    cases c with
    | none => exact hmain c0 hc0
    | some s =>
      by_cases hs0 : s = ""
      · have heq : serializeLine (HostsLine.entry ip hs (some s)) =
            joinWith '\t' (ip.data :: hs.map String.data) := by
          simp only [serializeLine, if_pos hs0]
        rw [heq] at hc0
        exact hmain c0 hc0
      · have hdata : s.data ≠ [] := fun hd => hs0 (data_eq_nil_iff.1 hd)
        have heq : serializeLine (HostsLine.entry ip hs (some s)) =
            joinWith '\t' (ip.data :: hs.map String.data) ++
              '\t' :: '#' :: ' ' :: s.data := by
          simp only [serializeLine, if_neg hs0]
        rw [heq, getLastq_append (List.cons_ne_nil _ _),
          getLastq_cons_of_ne_nil (List.cons_ne_nil _ _),
          getLastq_cons_of_ne_nil (List.cons_ne_nil _ _),
          getLastq_cons_of_ne_nil hdata] at hc0
        exact trimEnd_eq_self_iff.1 (hcwf s rfl).2.1 c0 hc0

/-! ### Per-line round trip -/

theorem mk_data (s : String) : String.mk s.data = s := rfl

theorem map_mk_data (hs : List String) : (hs.map String.data).map String.mk = hs := by
  induction hs with
  | nil => rfl
  | cons u t ih => rw [List.map_cons, List.map_cons, ih]

theorem trimEnd_append_ws {l : List Char} {c : Char} (hc : isJsWhitespace c = true) :
    trimEnd (l ++ [c]) = trimEnd l := by
  have hrev : (l ++ [c]).reverse = c :: l.reverse := by simp
  rw [trimEnd, hrev, List.dropWhile_cons, if_pos hc]
  rfl

theorem parseLine_of_no_hash {l : List Char} (hne : l ≠ []) (hfix : trimEnd l = l)
    (hnh : ¬ '#' ∈ l) : parseLine l = classifyData l none := by
  rw [parseLine, hfix, if_neg hne, splitFirstHash_none.2 hnh]

theorem parseLine_comment_case {b : List Char} (hfix : trimEnd ('#' :: b) = '#' :: b) :
    parseLine ('#' :: b) = [HostsLine.comment (String.mk (trimStart b))] := by
  rw [parseLine, hfix, if_neg (List.cons_ne_nil _ _),
    show splitFirstHash ('#' :: b) = some ([], b) from by
      rw [splitFirstHash, if_pos rfl]]

theorem parseLine_hash_case {a b : List Char} {m0 : Char} {ms : List Char}
    (ha : a = m0 :: ms)
    (hfix : trimEnd (a ++ '#' :: b) = a ++ '#' :: b)
    (hnh : ¬ '#' ∈ a) :
    parseLine (a ++ '#' :: b) =
      classifyData (trimEnd a) (some (String.mk (trimStart b))) := by
  rw [parseLine, hfix, if_neg (by rw [ha, List.cons_append]; exact List.cons_ne_nil _ _),
    splitFirstHash_append hnh, ha]

theorem classifyData_entry {ip : String} {hs : List String} {ic : Option String}
    (hip1 : ip.data ≠ [])
    (hmne : joinWith '\t' (ip.data :: hs.map String.data) ≠ [])
    (htok : tokenize (joinWith '\t' (ip.data :: hs.map String.data)) =
      ip.data :: hs.map String.data) :
    classifyData (joinWith '\t' (ip.data :: hs.map String.data)) ic =
      [HostsLine.entry ip hs ic] := by
  rw [classifyData, if_neg hmne, htok]
  show (if ip.data = [] then []
    else [HostsLine.entry (String.mk ip.data)
      ((hs.map String.data).map String.mk) ic]) = _
  rw [if_neg hip1, map_mk_data]

theorem parseLine_serializeLine {l : HostsLine} (h : WFLine l) :
    parseLine (serializeLine l) = [normalizeLine l] := by
  cases l with
  | empty => rfl
  | comment s =>
    by_cases hs : s = ""
    · subst hs
      decide
    · have hdata : s.data ≠ [] := fun hd => hs (data_eq_nil_iff.1 hd)
      have hfix : trimEnd ('#' :: ' ' :: s.data) = '#' :: ' ' :: s.data := by
        refine trimEnd_eq_self_iff.2 fun c hc => ?_
        rw [getLastq_cons_of_ne_nil (List.cons_ne_nil _ _),
          getLastq_cons_of_ne_nil hdata] at hc
        exact trimEnd_eq_self_iff.1 h.2.1 c hc
      have heq : serializeLine (HostsLine.comment s) = '#' :: ' ' :: s.data := by
        rw [serializeLine, if_neg hs]
      rw [heq, parseLine_comment_case hfix]
      have hts : trimStart (' ' :: s.data) = s.data := by
        rw [trimStart, List.dropWhile_cons,
          if_pos (show isJsWhitespace ' ' = true by decide)]
        exact h.1
      rw [hts, mk_data]
      rfl
  | entry ip hs c =>
    obtain ⟨hip, hhs, hcwf⟩ := h
    have hts1 := entry_tokens_ne_nil hip hhs
    have hts2 := entry_tokens_nonws hip hhs
    have hmne : joinWith '\t' (ip.data :: hs.map String.data) ≠ [] :=
      joinWith_ne_nil hip.1
    have hmfix : trimEnd (joinWith '\t' (ip.data :: hs.map String.data)) =
        joinWith '\t' (ip.data :: hs.map String.data) :=
      trimEnd_eq_self_iff.2 (joinWith_tab_last hts1
        (fun t ht c hc => hts2 t ht c (getLastq_mem hc)))
    have hmnh : ¬ '#' ∈ joinWith '\t' (ip.data :: hs.map String.data) := by
      intro hm
      rcases mem_joinWith hm with he | ⟨t, ht, hct⟩
      · exact absurd he (by decide)
      · rcases List.mem_cons.1 ht with rfl | ht2
        · exact (hip.2 '#' hct).2 rfl
        · rcases List.mem_map.1 ht2 with ⟨u, hu, rfl⟩
          exact ((hhs u hu).2 '#' hct).2 rfl
    have htok := tokenize_joinWith_tab hts1 hts2
    have hmain_eval : parseLine (joinWith '\t' (ip.data :: hs.map String.data)) =
        [HostsLine.entry ip hs none] := by
      rw [parseLine_of_no_hash hmne hmfix hmnh, classifyData_entry hip.1 hmne htok]
    cases c with
    | none =>
      rw [show serializeLine (HostsLine.entry ip hs none) =
          joinWith '\t' (ip.data :: hs.map String.data) from rfl, hmain_eval]
      rfl
    | some s =>
      by_cases hs0 : s = ""
      · subst hs0
        have heq : serializeLine (HostsLine.entry ip hs (some "")) =
            joinWith '\t' (ip.data :: hs.map String.data) := by
          simp [serializeLine]
        rw [heq, hmain_eval]
        rfl
      · have hdata : s.data ≠ [] := fun hd => hs0 (data_eq_nil_iff.1 hd)
        have heq : serializeLine (HostsLine.entry ip hs (some s)) =
            (joinWith '\t' (ip.data :: hs.map String.data) ++ ['\t']) ++
              '#' :: (' ' :: s.data) := by
          simp only [serializeLine, if_neg hs0]
          rw [List.append_assoc]
          rfl
        obtain ⟨m0, ms, hm⟩ : ∃ m0 ms,
            joinWith '\t' (ip.data :: hs.map String.data) = m0 :: ms := by
          cases hmm : joinWith '\t' (ip.data :: hs.map String.data) with
          | nil => exact absurd hmm hmne
          | cons m0 ms => exact ⟨m0, ms, rfl⟩
        have hfix2 : trimEnd ((joinWith '\t' (ip.data :: hs.map String.data) ++
            ['\t']) ++ '#' :: (' ' :: s.data)) =
            (joinWith '\t' (ip.data :: hs.map String.data) ++ ['\t']) ++
              '#' :: (' ' :: s.data) := by
          refine trimEnd_eq_self_iff.2 fun c hc => ?_
          rw [getLastq_append (List.cons_ne_nil _ _),
            getLastq_cons_of_ne_nil (List.cons_ne_nil _ _),
            getLastq_cons_of_ne_nil hdata] at hc
          exact trimEnd_eq_self_iff.1 (hcwf s rfl).2.1 c hc
        have hnh2 : ¬ '#' ∈ joinWith '\t' (ip.data :: hs.map String.data) ++ ['\t'] := by
          intro hm2
          rcases List.mem_append.1 hm2 with hm2 | hm2
          · exact hmnh hm2
          · rcases List.mem_singleton.1 hm2 with he
            exact absurd he (by decide)
        have hts : trimStart (' ' :: s.data) = s.data := by
          rw [trimStart, List.dropWhile_cons,
            if_pos (show isJsWhitespace ' ' = true by decide)]
          exact (hcwf s rfl).1
        rw [heq, parseLine_hash_case (by rw [hm]; rfl) hfix2 hnh2,
          trimEnd_append_ws (show isJsWhitespace '\t' = true by decide), hmfix,
          hts, mk_data, classifyData_entry hip.1 hmne htok]
        rw [show normalizeLine (HostsLine.entry ip hs (some s)) =
            HostsLine.entry ip hs (some s) from by
          rw [normalizeLine, if_neg hs0]]

/-! ### Splitting the serialized join -/

theorem splitLinesAux_scan {p : List Char} (hnl : ¬ '\n' ∈ p) :
    ∀ rest acc, (p.getLast? = some '\r' → rest.head? ≠ some '\n') →
      splitLinesAux (p ++ rest) acc = splitLinesAux rest (p.reverse ++ acc) := by
  induction p with
  | nil => intro rest acc _; rfl
  | cons c p2 ih =>
    intro rest acc hcr
    have hcn : ¬ c = '\n' := fun he => hnl (he ▸ List.mem_cons_self c p2)
    have hnl2 : ¬ '\n' ∈ p2 := fun hm => hnl (List.mem_cons_of_mem c hm)
    have hstep : splitLinesAux (c :: (p2 ++ rest)) acc =
        splitLinesAux (p2 ++ rest) (c :: acc) := by
      by_cases hcr2 : c = '\r'
      · subst hcr2
        have hh : (p2 ++ rest).head? ≠ some '\n' := by
          cases p2 with
          | nil => exact hcr rfl
          | cons q p3 =>
            have hq : ¬ q = '\n' := fun he => hnl2 (he ▸ List.mem_cons_self q p3)
            rw [List.cons_append, List.head?_cons]
            exact fun hc => hq (by
              rw [Option.some.injEq] at hc
              exact hc)
        cases hx : p2 ++ rest with
        | nil =>
          rw [splitLinesAux.eq_def]
          simp [splitLinesAux]
        | cons x xs =>
          have hxn : ¬ x = '\n' := by
            rw [hx, List.head?_cons] at hh
            exact fun he => hh (by rw [he])
          rw [splitLinesAux.eq_def]
          simp [hxn]
      · rw [splitLinesAux.eq_def]
        simp [hcn, hcr2]
    rw [List.cons_append, hstep,
      ih hnl2 rest (c :: acc) (fun h2 => hcr (by
        have hp2 : p2 ≠ [] := fun he => by
          rw [he] at h2
          exact Option.noConfusion h2
        rw [getLastq_cons_of_ne_nil hp2]
        exact h2)),
      List.reverse_cons, List.append_assoc, List.singleton_append]

theorem splitLines_joinWith {ps : List (List Char)} :
    ∀ {p : List Char},
      (∀ u ∈ p :: ps, ¬ '\n' ∈ u) →
      (∀ u ∈ p :: ps, ∀ c, u.getLast? = some c → isJsWhitespace c = false) →
      ∀ acc, splitLinesAux (joinWith '\n' (p :: ps)) acc = (acc.reverse ++ p) :: ps := by
  induction ps with
  | nil =>
    intro p h1 h2 acc
    have hp1 : ¬ '\n' ∈ p := h1 p (List.mem_cons_self p [])
    rw [joinWith, ← List.append_nil p,
      splitLinesAux_scan hp1 [] acc (fun _ hc => Option.noConfusion hc),
      splitLinesAux, List.reverse_append, List.reverse_reverse, List.append_nil]
  | cons q ps2 ih =>
    intro p h1 h2 acc
    have hp1 : ¬ '\n' ∈ p := h1 p (List.mem_cons_self p _)
    have hlast : p.getLast? = some '\r' →
        ('\n' :: joinWith '\n' (q :: ps2)).head? ≠ some '\n' := fun hl =>
      absurd (h2 p (List.mem_cons_self p _) '\r' hl) (by decide)
    rw [joinWith_cons_cons,
      splitLinesAux_scan hp1 ('\n' :: joinWith '\n' (q :: ps2)) acc hlast,
      show splitLinesAux ('\n' :: joinWith '\n' (q :: ps2)) (p.reverse ++ acc) =
        (p.reverse ++ acc).reverse ::
          splitLinesAux (joinWith '\n' (q :: ps2)) [] from by
        rw [splitLinesAux.eq_def]; simp,
      ih (fun u hu => h1 u (List.mem_cons_of_mem p hu))
        (fun u hu c hc => h2 u (List.mem_cons_of_mem p hu) c hc) []]
    simp

theorem flatMap_parse_serialize {L : List HostsLine} (h : ∀ l ∈ L, WFLine l) :
    (L.map serializeLine).flatMap parseLine = L.map normalizeLine := by
  induction L with
  | nil => rfl
  | cons a t ih =>
    rw [List.map_cons, List.flatMap_cons,
      parseLine_serializeLine (h a (List.mem_cons_self a t)),
      ih fun l hl => h l (List.mem_cons_of_mem a hl), List.map_cons,
      List.singleton_append]

/-! ### Claim C1 theorems -/

/-- C1 is false as stated: an entry line carrying a `#` with nothing after it
parses to an Entry with an empty-string inline comment, which `serialize`
writes exactly like an absent comment, so reparsing loses the distinction. -/
theorem roundTrip_cex :
    parse (serialize (parse "1.2.3.4 host #")) ≠ parse "1.2.3.4 host #" := by
  decide

/-- C1 (amended): the parse-serialize-parse round trip reproduces the parsed
sequence up to normalizing empty inline comments — `parse (serialize (parse s))`
equals `parse s` with every Entry comment that is the empty string replaced
by an absent comment; in particular it equals `parse s` whenever no Entry of
`parse s` carries an empty-string inline comment. -/
theorem parse_serialize_parse (s : String) :
    parse (serialize (parse s)) = (parse s).map normalizeLine := by
  have hWF : ∀ l ∈ parse s, WFLine l := parse_WF s.data
  have hp1 : ∀ p ∈ (parse s).map serializeLine, ¬ '\n' ∈ p := by
    intro p hp
    rcases List.mem_map.1 hp with ⟨l, hl, rfl⟩
    exact serializeLine_no_newline (hWF l hl)
  have hp2 : ∀ p ∈ (parse s).map serializeLine, ∀ c, p.getLast? = some c →
      isJsWhitespace c = false := by
    intro p hp
    rcases List.mem_map.1 hp with ⟨l, hl, rfl⟩
    exact serializeLine_last (hWF l hl)
  obtain ⟨l0, L0, hL⟩ : ∃ l0 L0, parse s = l0 :: L0 := by
    cases hc : parse s with
    | nil =>
      exfalso
      have hlen : (parse s).length = (splitLines s.data).length :=
        flatMap_length_singleton fun x _ => parseLine_singleton x
      have hpos : 0 < (splitLines s.data).length := splitLinesAux_length_pos s.data []
      rw [hc] at hlen
      rw [← hlen] at hpos
      exact absurd hpos (by simp)
    | cons a b => exact ⟨a, b, rfl⟩
  rw [hL] at hWF hp1 hp2 ⊢
  show (splitLinesAux
    (joinWith '\n' ((l0 :: L0).map serializeLine)) []).flatMap parseLine = _
  rw [List.map_cons] at hp1 hp2 ⊢
  rw [splitLines_joinWith hp1 hp2 []]
  show (serializeLine l0 :: L0.map serializeLine).flatMap parseLine = _
  rw [← List.map_cons]
  exact flatMap_parse_serialize hWF

end HostsSpec
